import Mathlib

/-!
Verification of the ff-optimizer lineup engines.

Shallow embedding of `src/backend/app.py` (heuristic slot-aware engine) and
`src/backend/auction_lineup_optimizer_strict.py` (exact PuLP-based engine).

Modelling conventions:

* Python float prices/projections are embedded as integers (`ℤ`).  The strict
  engine's prices are integers in the source (`astype(int)`); for the heuristic
  engine this is an exact model of the float arithmetic on integer-valued
  inputs, and every property below is purely order/sum-theoretic.  The one
  float division (the upgrade loop's gain-per-cost ratio) is represented as an
  exact fraction pair compared by cross-multiplication, and the float guard
  `budget_left <= 1e-9` is the integer comparison scaled by `10^9`.
* Python `str` operations are modelled on the ASCII fragment: the NFKD →
  ASCII-ignore fold of `normalize_name` is the identity there.
* Python `set` is `Finset String`; `dict` rows are structures keeping the
  source field names.
* The external CBC solver invoked by `prob.solve(...)` is a parameter
  (`Solver`); theorems about the exact engine assume (as the spec does) that a
  selection it reports as Optimal satisfies the formulated constraints.
-/

namespace FF

/-! ## ASCII string helpers (Python `strip` / `upper` / `lower` on ASCII) -/

/-- ASCII whitespace (models Python's `\s` / `str.strip` on ASCII input). -/
def isSpace (c : Char) : Bool :=
  c == ' ' || c == '\t' || c == '\n' || c == '\r' || c == '\x0b' || c == '\x0c'

def trimList (l : List Char) : List Char :=
  ((l.dropWhile isSpace).reverse.dropWhile isSpace).reverse

/-- Python `str.strip()`. -/
def strip (s : String) : String := String.mk (trimList s.toList)

def upperChar (c : Char) : Char :=
  if 'a' ≤ c && c ≤ 'z' then Char.ofNat (c.toNat - 32) else c

def lowerChar (c : Char) : Char :=
  if 'A' ≤ c && c ≤ 'Z' then Char.ofNat (c.toNat + 32) else c

/-- Python `str.upper()` (ASCII). -/
def upper (s : String) : String := String.mk (s.toList.map upperChar)

/-- Python `str.lower()` (ASCII). -/
def lower (s : String) : String := String.mk (s.toList.map lowerChar)

/-- Lexicographic comparison of strings by code point, as Python `sorted` uses. -/
def charListLe : List Char → List Char → Bool
  | [], _ => true
  | _ :: _, [] => false
  | a :: as, b :: bs => if a < b then true else if b < a then false else charListLe as bs

def strLe (a b : String) : Bool := charListLe a.toList b.toList

/-! ## `app.py`: parsing -/

/-- One raw JSON row handed to `parse_rows`.  A field is `none` when the key is
absent; `Price`/`Projection` carry `some z` when Python `float(...)` succeeds
with (integer-valued) result `z`, and `none` when the key is missing or
`float` raises (both land in the `except` branch). -/
structure RawRow where
  Name : Option String := none
  name : Option String := none
  Pos : Option String := none
  position : Option String := none
  Price : Option ℤ := none
  Projection : Option ℤ := none
  anchor : Bool := false
  exclude : Bool := false
deriving DecidableEq, Repr

/-- A parsed player row (the dict built by `parse_rows`). -/
structure Player where
  Name : String
  Pos : String
  Price : ℤ
  Projection : ℤ
  anchor : Bool := false
  exclude : Bool := false
deriving DecidableEq, Repr

/-- Python truthiness fallback `a or b` for strings: an absent key or an empty
string falls through to `b`. -/
def orElseStr (a : Option String) (b : String) : String :=
  match a with
  | none => b
  | some s => if s = "" then b else s

/-- Body of the `parse_rows` loop for one row: `None` means the row is skipped
(`continue`). -/
def parseRow (r : RawRow) : Option Player :=
  let name := strip (orElseStr r.Name (orElseStr r.name ""))
  let pos := upper (strip (orElseStr r.Pos (orElseStr r.position "")))
  let price := r.Price.getD 0
  let proj := r.Projection.getD 0
  if name = "" || pos = "" then none
  else some { Name := name, Pos := pos, Price := max 0 price, Projection := max 0 proj,
              anchor := r.anchor, exclude := r.exclude }

def parse_rows (payload_rows : List RawRow) : List Player :=
  payload_rows.filterMap parseRow

/-- The solution payload built by `make_solution_payload`.  The Python
`round(·, 2)` / `round(·, 4)` are the identity on the integer-valued model. -/
structure SolutionPayload where
  players : List Player
  total_price : ℤ
  total_projection : ℤ
deriving DecidableEq, Repr

def make_solution_payload (players : List Player) : SolutionPayload :=
  { players := players
    total_price := (players.map (·.Price)).sum
    total_projection := (players.map (·.Projection)).sum }

/-! ## `app.py`: slot model -/

/-- Model of `DEFAULT_ROSTER` merged over caller overrides; the default field values are
exactly `DEFAULT_ROSTER`. -/
structure Roster where
  QB : ℤ := 1
  RB : ℤ := 2
  WR : ℤ := 2
  TE : ℤ := 1
  FLEX : ℤ := 1
  K : ℤ := 0
  DST : ℤ := 0
deriving DecidableEq, Repr

def FLEX_POS : List String := ["RB", "WR", "TE"]

structure Slot where
  type : String
  player : Option Player
deriving DecidableEq, Repr

def _build_slots (roster : Roster) : List Slot :=
  (List.replicate (max 0 roster.QB).toNat { type := "QB", player := none }) ++
  (List.replicate (max 0 roster.RB).toNat { type := "RB", player := none }) ++
  (List.replicate (max 0 roster.WR).toNat { type := "WR", player := none }) ++
  (List.replicate (max 0 roster.TE).toNat { type := "TE", player := none }) ++
  (List.replicate (max 0 roster.K).toNat { type := "K", player := none }) ++
  (List.replicate (max 0 roster.DST).toNat { type := "DST", player := none }) ++
  (List.replicate (max 0 roster.FLEX).toNat { type := "FLEX", player := none })

def _slot_allows (slotType pos : String) : Bool :=
  if slotType == "FLEX" then FLEX_POS.contains pos else slotType == pos

/-- Bind `a` to the first slot satisfying `pred` (mirrors the two search loops
of `_assign_anchor`); `none` when no slot matches. -/
def assignFirst (a : Player) (pred : Slot → Bool) : List Slot → Option (List Slot)
  | [] => none
  | s :: rest =>
      if pred s then some ({ s with player := some a } :: rest)
      else (assignFirst a pred rest).map (s :: ·)

/-- Model of `_assign_anchor`: base-compatible empty slot first, then FLEX; `none` means
the Python function returned `False` (slots unchanged). -/
def _assign_anchor (slots : List Slot) (a : Player) : Option (List Slot) :=
  match assignFirst a
      (fun s => s.player.isNone && !(s.type == "FLEX") && _slot_allows s.type a.Pos) slots with
  | some slots' => some slots'
  | none =>
      assignFirst a (fun s => s.player.isNone && s.type == "FLEX" && _slot_allows "FLEX" a.Pos)
        slots

/-- Strict lexicographic `<` on integer pairs. -/
def lexLtZ (a b : ℤ × ℤ) : Bool := a.1 < b.1 || (a.1 == b.1 && a.2 < b.2)

/-- First element of `l` attaining the lexicographically largest key: this is
`sorted(l, key=…, reverse=True)[0]` for Python's stable sort (and, with the
first key component negated, `sorted(l, key=…)[0]`). -/
def pickTop (key : Player → ℤ × ℤ) : List Player → Option Player
  | [] => none
  | c :: cs => some (cs.foldl (fun acc r => if lexLtZ (key acc) (key r) then r else acc) c)

/-! ## `app.py`: seeding -/

/-- The anchor-placement loop of `_seed_cheapest_slots`. -/
def placeAnchors : List Player → List Slot → Finset String → ℤ →
    List Slot × Finset String × ℤ
  | [], slots, chosen, spent => (slots, chosen, spent)
  | a :: rest, slots, chosen, spent =>
      match _assign_anchor slots a with
      | some slots' => placeAnchors rest slots' (insert a.Name chosen) (spent + a.Price)
      | none => placeAnchors rest slots chosen spent

/-- The fill loop of `_seed_cheapest_slots`: each empty slot takes the cheapest
compatible unused candidate (ties: higher projection). -/
def fillCheapest (pool : List Player) : List Slot → Finset String → ℤ →
    List Slot × Finset String × ℤ
  | [], chosen, spent => ([], chosen, spent)
  | s :: rest, chosen, spent =>
      match s.player with
      | some _ =>
          let (rest', c, sp) := fillCheapest pool rest chosen spent
          (s :: rest', c, sp)
      | none =>
          let cands := pool.filter fun r => decide (r.Name ∉ chosen) && _slot_allows s.type r.Pos
          match pickTop (fun r => (-r.Price, r.Projection)) cands with
          | some pick =>
              let (rest', c, sp) := fillCheapest pool rest (insert pick.Name chosen)
                  (spent + pick.Price)
              ({ s with player := some pick } :: rest', c, sp)
          | none =>
              let (rest', c, sp) := fillCheapest pool rest chosen spent
              (s :: rest', c, sp)

def _seed_cheapest_slots (pool anchors : List Player) (roster : Roster) : List Slot × ℤ :=
  let slots := _build_slots roster
  let placed := placeAnchors anchors slots ∅ 0
  let filled := fillCheapest pool placed.1 placed.2.1 placed.2.2
  (filled.1, filled.2.2)

def _slots_players (slots : List Slot) : List Player := slots.filterMap (·.player)

def _slots_spent (slots : List Slot) : ℤ :=
  (slots.map fun s => ((s.player.map (·.Price)).getD 0)).sum

/-! ## `app.py`: `_improve_slots_within_budget` -/

/-- Mutable state of the improvement loops: the slot list plus the incrementally
maintained `chosen_names` set and `spent` total. -/
structure ImpState where
  slots : List Slot
  chosen : Finset String
  spent : ℤ
deriving DecidableEq

def reduceCands (pool : List Player) (chosen : Finset String) (s : Slot) (cur : Player) :
    List Player :=
  pool.filter fun r =>
    decide (r.Name ∉ chosen) && _slot_allows s.type r.Pos && decide (r.Price < cur.Price)

/-- The candidate scan of the cost-reduction loop over `enumerate(slots)`:
per slot the stable reverse sort by `(saving, projection)` picks its head, and
the running `best` is replaced only on strictly larger saving. -/
def findReduceSwap (pool : List Player) (anchorNames chosen : Finset String) :
    List (ℕ × Slot) → Option (ℤ × ℕ × Player) → Option (ℤ × ℕ × Player)
  | [], best => best
  | (i, s) :: rest, best =>
      let best' :=
        match s.player with
        | none => best
        | some cur =>
            if cur.Name ∈ anchorNames then best
            else
              match pickTop (fun r => (cur.Price - r.Price, r.Projection))
                  (reduceCands pool chosen s cur) with
              | none => best
              | some rep =>
                  let saving := cur.Price - rep.Price
                  match best with
                  | none => some (saving, i, rep)
                  | some b => if b.1 < saving then some (saving, i, rep) else some b
      findReduceSwap pool anchorNames chosen rest best'

/-- In-place update `slots[i]["player"] = rep`. -/
def setPlayer : List Slot → ℕ → Player → List Slot
  | [], _, _ => []
  | s :: rest, 0, rep => { s with player := some rep } :: rest
  | s :: rest, n + 1, rep => s :: setPlayer rest n rep

/-- Applies `chosen_names.remove(cur); chosen_names.add(rep);
spent += rep - cur; slots[i]["player"] = rep`. -/
def applySwap (st : ImpState) (i : ℕ) (cur rep : Player) : ImpState :=
  { slots := setPlayer st.slots i rep
    chosen := insert rep.Name (st.chosen.erase cur.Name)
    spent := st.spent + (rep.Price - cur.Price) }

/-- One iteration body of the cost-reduction loop; `none` = `best is None`
(loop breaks). -/
def reduceStep (pool : List Player) (anchorNames : Finset String) (st : ImpState) :
    Option ImpState :=
  match findReduceSwap pool anchorNames st.chosen st.slots.enum none with
  | none => none
  | some b =>
      match st.slots.get? b.2.1 with
      | some s =>
          match s.player with
          | some cur => some (applySwap st b.2.1 cur b.2.2)
          | none => none
      | none => none

/-- Loop `for _ in range(200): if spent <= budget: break; …
if best is None: break`. -/
def reduceLoop (pool : List Player) (anchorNames : Finset String) (budget : ℤ) :
    ℕ → ImpState → ImpState
  | 0, st => st
  | fuel + 1, st =>
      if st.spent ≤ budget then st
      else
        match reduceStep pool anchorNames st with
        | none => st
        | some st' => reduceLoop pool anchorNames budget fuel st'

def upgradeCands (pool : List Player) (chosen : Finset String) (budget_left : ℤ)
    (s : Slot) (cur : Player) : List Player :=
  pool.filter fun r =>
    decide (r.Name ∉ chosen) && _slot_allows s.type r.Pos &&
    decide (cur.Projection < r.Projection) && decide (0 < r.Price - cur.Price) &&
    decide (r.Price - cur.Price ≤ budget_left)

/-- The float ratio `gain / extra` represented exactly as the pair
`(gain, extra)`; the code's `if extra > 0 else 0` branch becomes `(0, 1)`. -/
def mkRatio (gain extra : ℤ) : ℤ × ℤ := if 0 < extra then (gain, extra) else (0, 1)

/-- Comparison `a < b` on represented ratios, decided by cross-multiplication — exactly the
real-number comparison, since every represented denominator is positive. -/
def ratioLt (a b : ℤ × ℤ) : Bool := a.1 * b.2 < b.1 * a.2

/-- The candidate scan of the upgrade loop: every compatible affordable
strictly-improving replacement of every bound non-anchor slot, keeping the
first strictly-largest ratio. -/
def findUpgradeSwap (pool : List Player) (anchorNames chosen : Finset String)
    (budget_left : ℤ) :
    List (ℕ × Slot) → Option ((ℤ × ℤ) × ℕ × Player) → Option ((ℤ × ℤ) × ℕ × Player)
  | [], best => best
  | (i, s) :: rest, best =>
      let best' :=
        match s.player with
        | none => best
        | some cur =>
            if cur.Name ∈ anchorNames then best
            else
              (upgradeCands pool chosen budget_left s cur).foldl
                (fun b r =>
                  let ratio := mkRatio (r.Projection - cur.Projection) (r.Price - cur.Price)
                  match b with
                  | none => some (ratio, i, r)
                  | some b0 => if ratioLt b0.1 ratio then some (ratio, i, r) else some b0)
                best
      findUpgradeSwap pool anchorNames chosen budget_left rest best'

/-- One iteration body of the upgrade loop. -/
def upgradeStep (pool : List Player) (anchorNames : Finset String) (budget_left : ℤ)
    (st : ImpState) : Option ImpState :=
  match findUpgradeSwap pool anchorNames st.chosen budget_left st.slots.enum none with
  | none => none
  | some b =>
      match st.slots.get? b.2.1 with
      | some s =>
          match s.player with
          | some cur => some (applySwap st b.2.1 cur b.2.2)
          | none => none
      | none => none

/-- Loop `for _ in range(600): budget_left = budget - spent;
if budget_left <= 1e-9: break; …`.  The float literal `1e-9` is scaled to the
integer comparison `budget_left * 10^9 ≤ 1`. -/
def upgradeLoop (pool : List Player) (anchorNames : Finset String) (budget : ℤ) :
    ℕ → ImpState → ImpState
  | 0, st => st
  | fuel + 1, st =>
      let budget_left := budget - st.spent
      if budget_left * 1000000000 ≤ 1 then st
      else
        match upgradeStep pool anchorNames budget_left st with
        | none => st
        | some st' => upgradeLoop pool anchorNames budget fuel st'

/-- Model of `_improve_slots_within_budget`: recompute `chosen_names`/`spent` from the
incoming slots, run the bounded cost-reduction loop then the bounded upgrade
loop. -/
def _improve_slots_within_budget (pool : List Player) (slots : List Slot) (budget : ℤ)
    (anchors : List Player) : List Slot :=
  let anchorNames : Finset String := (anchors.map (·.Name)).toFinset
  let st0 : ImpState :=
    { slots := slots
      chosen := ((_slots_players slots).map (·.Name)).toFinset
      spent := _slots_spent slots }
  (upgradeLoop pool anchorNames budget 600 (reduceLoop pool anchorNames budget 200 st0)).slots

/-! ## `app.py`: diversification and `solve_lineups` -/

/-- Lookup `_candidates_by_slot(pool)[key]`: candidates compatible with the slot key,
stably sorted by projection descending (`defaultdict` lookup of a missing key
yields `[]`, as the filter does).  Python's stable `list.sort` is modelled by
stable insertion sort, which returns the identical list. -/
def _candidates_by_slot (pool : List Player) (key : String) : List Player :=
  (pool.filter fun r =>
      if key == "FLEX" then FLEX_POS.contains r.Pos else r.Pos == key).insertionSort
    fun a b => b.Projection ≤ a.Projection

/-- The dedup signature: `tuple(sorted(names))`. -/
def sigOf (p : SolutionPayload) : List String :=
  (p.players.map (·.Name)).insertionSort fun a b => strLe a b = true

/-- The local `push` helper of `solve_lineups`. -/
def push (results : List SolutionPayload) (slots : List Slot) : List SolutionPayload :=
  let payload := make_solution_payload (_slots_players slots)
  if sigOf payload ∈ results.map sigOf then results else results ++ [payload]

/-- Inner diversification loop over `alts` with the `tried` counter (`M = 12`). -/
def diversifyInner (pool anchors : List Player) (budget : ℤ) (kcap : ℕ)
    (best_slots : List Slot) (i : ℕ) :
    List Player → ℕ → List SolutionPayload → List SolutionPayload
  | [], _, results => results
  | cand :: alts, tried, results =>
      let trial := _improve_slots_within_budget pool (setPlayer best_slots i cand) budget anchors
      let results' := push results trial
      let tried' := tried + 1
      if kcap ≤ results'.length || 12 ≤ tried' then results'
      else diversifyInner pool anchors budget kcap best_slots i alts tried' results'

/-- Outer diversification loop over `enumerate(best_slots)`. -/
def diversifyOuter (pool anchors : List Player) (budget : ℤ) (kcap : ℕ)
    (chosenNames anchorNames : Finset String) (best_slots : List Slot) :
    List (ℕ × Slot) → List SolutionPayload → List SolutionPayload
  | [], results => results
  | (i, s) :: rest, results =>
      match s.player with
      | none =>
          diversifyOuter pool anchors budget kcap chosenNames anchorNames best_slots rest results
      | some cur =>
          if cur.Name ∈ anchorNames then
            diversifyOuter pool anchors budget kcap chosenNames anchorNames best_slots rest results
          else
            let alts := (_candidates_by_slot pool s.type).filter fun r =>
              decide (r.Name ∉ chosenNames) && !(r.Name == cur.Name)
            let results' := diversifyInner pool anchors budget kcap best_slots i alts 0 results
            if kcap ≤ results'.length then results'
            else
              diversifyOuter pool anchors budget kcap chosenNames anchorNames best_slots rest
                results'

/-- Model of `solve_lineups`.  The `{**DEFAULT_ROSTER, **(roster or {})}` merge is
modelled by passing the merged `Roster` (whose defaults are `DEFAULT_ROSTER`). -/
def solve_lineups (rows : List Player) (budget : ℤ) (k : ℤ) (roster : Roster) :
    List SolutionPayload :=
  let pool := rows.filter fun r => !r.exclude
  let anchors := pool.filter fun r => r.anchor
  let seed := (_seed_cheapest_slots pool anchors roster).1
  let best_slots := _improve_slots_within_budget pool seed budget anchors
  let results0 := push [] best_slots
  let kcap := (max 1 k).toNat
  let chosenNames : Finset String := ((_slots_players best_slots).map (·.Name)).toFinset
  let anchorNames : Finset String := (anchors.map (·.Name)).toFinset
  let results := diversifyOuter pool anchors budget kcap chosenNames anchorNames best_slots
      best_slots.enum results0
  (results.insertionSort fun a b => b.total_projection ≤ a.total_projection).take kcap

/-! ## `auction_lineup_optimizer_strict.py`: name keys and anchor matching -/

/-- Collapse each maximal whitespace run to a single `' '`
(Python `re.sub(r"\s+", " ", s)`). -/
def collapseWS : List Char → List Char
  | [] => []
  | [c] => if isSpace c then [' '] else [c]
  | c1 :: c2 :: rest =>
      if isSpace c1 && isSpace c2 then collapseWS (c2 :: rest)
      else (if isSpace c1 then ' ' else c1) :: collapseWS (c2 :: rest)

/-- Model of `normalize_name`: the NFKD decomposition followed by the ASCII-ignore
encode keeps exactly the ASCII code points of ASCII input (modelled as the
`< 128` filter), then whitespace collapse, strip, lower. -/
def normalize_name (s : String) : String :=
  lower (strip (String.mk (collapseWS (s.toList.filter fun c => decide (c.toNat < 128)))))

/-- Model of `simplify_key`: `re.sub(r"[^a-z0-9]", "", s.lower())`. -/
def simplify_key (s : String) : String :=
  String.mk ((lower s).toList.filter fun c => ('a' ≤ c && c ≤ 'z') || ('0' ≤ c && c ≤ '9'))

/-- The simplified key computed for a raw anchor string in
`match_anchor_indices`. -/
def anchorKey (raw : String) : String := simplify_key (normalize_name (strip raw))

/-- Substring containment on char lists (pandas `str.contains` with a literal
alphanumeric pattern). -/
def containsSub (hay needle : List Char) : Bool :=
  (List.range (hay.length + 1)).any fun i => needle.isPrefixOf (hay.drop i)

/-- One row of the DataFrame consumed by the strict optimizer.  `NameKeySimpl`
is the column `load_table` derives; `Price` is integral (`astype(int)`) and
`Projection` is modelled integer-valued.  The unused `NameKey` column is not
carried. -/
structure SRow where
  Name : String
  NameKeySimpl : String
  Pos : String
  Price : ℤ
  Projection : ℤ
deriving DecidableEq, Repr

/-- Indices `df.index[df["NameKeySimpl"].str.contains(a)].tolist()` for one raw anchor. -/
def matchIdxs (df : List SRow) (raw : String) : List ℕ :=
  ((df.enum.filter fun p => containsSub p.2.NameKeySimpl.toList (anchorKey raw).toList).map
    (·.1))

/-- Model of `match_anchor_indices`: anchors whose simplified key is empty are skipped
(`continue`), so they contribute no group at all. -/
def match_anchor_indices (df : List SRow) (anchors : List String) : List (List ℕ) :=
  match anchors with
  | [] => []
  | raw :: rest =>
      if anchorKey raw = "" then match_anchor_indices df rest
      else matchIdxs df raw :: match_anchor_indices df rest

/-! ## `auction_lineup_optimizer_strict.py`: `apply_excludes` -/

/-- Regex `\w` (ASCII). -/
def isWordChar (c : Char) : Bool :=
  ('a' ≤ c && c ≤ 'z') || ('A' ≤ c && c ≤ 'Z') || ('0' ≤ c && c ≤ '9') || c == '_'

def wordAt (l : List Char) (i : ℕ) : Bool :=
  match l.get? i with
  | some c => isWordChar c
  | none => false

/-- Regex `\b` at position `i` (between characters `i - 1` and `i`). -/
def boundaryAt (l : List Char) (i : ℕ) : Bool :=
  (if i = 0 then false else wordAt l (i - 1)) != wordAt l i

/-- Occurrence of `pat` in `hay` starting at `i`. -/
def matchAt (hay pat : List Char) (i : ℕ) : Bool := pat.isPrefixOf (hay.drop i)

/-- Regex `\b pat \b` somewhere in `hay` (case already folded by the caller). -/
def wordMatch (hay pat : List Char) : Bool :=
  (List.range (hay.length + 1)).any fun i =>
    matchAt hay pat i && boundaryAt hay i && boundaryAt hay (i + pat.length)

/-- Whether one exclude term matches the (lowered) name: a term containing a
space is matched as a plain substring, a single word with `\b` boundaries
(`re.escape` makes the term itself literal; `case=False` lowers both sides). -/
def excludeTerm (nameLower : List Char) (term : String) : Bool :=
  if term.toList.contains ' ' then containsSub nameLower (lower term).toList
  else wordMatch nameLower (lower term).toList

/-- The stripped non-empty exclude terms. -/
def excludeTerms (excludes : List String) : List String :=
  (excludes.map strip).filter fun n => !(n == "")

/-- Whether the joined alternation pattern matches the name. -/
def nameMatchesExclude (name : String) (excludes : List String) : Bool :=
  (excludeTerms excludes).any fun n => excludeTerm (lower name).toList n

/-- Model of `apply_excludes`: with no (non-empty) terms the frame is returned
unchanged, otherwise rows whose `Name` matches the pattern are dropped. -/
def apply_excludes (df : List SRow) (excludes : List String) : List SRow :=
  if (excludeTerms excludes).isEmpty then df
  else df.filter fun row => !(nameMatchesExclude row.Name excludes)

/-! ## `auction_lineup_optimizer_strict.py`: `solve_top_k_strict` -/

/-- Rows `df.iloc[chosen]` (selection rows in the order of `chosen`). -/
def selRows (df : List SRow) (sel : List ℕ) : List SRow := sel.filterMap fun i => df.get? i

/-- Total `int(rows["Price"].sum())`. -/
def selCost (df : List SRow) (sel : List ℕ) : ℤ := ((selRows df sel).map (·.Price)).sum

/-- Total `float(rows["Projection"].sum())` — the LP objective value of `sel`. -/
def selPoints (df : List SRow) (sel : List ℕ) : ℤ := ((selRows df sel).map (·.Projection)).sum

/-- One returned lineup.  The presentational slot labelling (QB/RB1/…/FLEX
`table`) has no effect on feasibility and is not carried; `players` is
`df.iloc[chosen]`. -/
structure StrictSolution where
  rank : ℕ
  chosen : List ℕ
  players : List SRow
  total_cost : ℤ
  total_points : ℤ
deriving DecidableEq, Repr

def mkStrictSolution (df : List SRow) (rep : ℕ) (sel : List ℕ) : StrictSolution :=
  { rank := rep + 1
    chosen := sel
    players := selRows df sel
    total_cost := selCost df sel
    total_points := selPoints df sel }

/-- The external CBC solver behind `prob.solve(pulp.PULP_CBC_CMD(...))`,
abstracted as a function of the data that determines the LP of one rank:
the frame, the budget, the anchor groups and the banned sets.  `some sel`
models an `Optimal` status with selected indices `sel`
(`[i for i in idx if x[i].value() == 1]`, hence increasing and duplicate-free);
`none` models any non-optimal status. -/
def Solver : Type :=
  List SRow → ℤ → List (List ℕ) → List (List ℕ) → Option (List ℕ)

/-- The constraint system `solve_top_k_strict` formulates for one rank:
budget cap, exactly 7 selected, `== 1` QB, `>= 1` TE, `>= 2` RB, `>= 2` WR,
at least one index of each (non-empty) anchor group, and at most 6 members of
each banned set.  (`sel.Nodup` and the index bound express that the solver
returns 0/1 values over `idx`.) -/
def feasibleSel (df : List SRow) (budget : ℤ) (groups banned : List (List ℕ))
    (sel : List ℕ) : Prop :=
  sel.Nodup ∧ (∀ i ∈ sel, i < df.length) ∧
  selCost df sel ≤ budget ∧
  sel.length = 7 ∧
  ((selRows df sel).countP fun r => r.Pos == "QB") = 1 ∧
  1 ≤ ((selRows df sel).countP fun r => r.Pos == "TE") ∧
  2 ≤ ((selRows df sel).countP fun r => r.Pos == "RB") ∧
  2 ≤ ((selRows df sel).countP fun r => r.Pos == "WR") ∧
  (∀ g ∈ groups, g ≠ [] → ∃ i ∈ g, i ∈ sel) ∧
  (∀ S ∈ banned, (S.filter fun i => decide (i ∈ sel)).length ≤ 6)

instance (df : List SRow) (budget : ℤ) (groups banned : List (List ℕ)) (sel : List ℕ) :
    Decidable (feasibleSel df budget groups banned sel) := by
  unfold feasibleSel; infer_instance

/-- The `for rep in range(k)` loop: stop at the first non-optimal status,
otherwise record the solution and ban its selection for later ranks. -/
def strictLoop (solver : Solver) (df : List SRow) (budget : ℤ) (groups : List (List ℕ)) :
    ℕ → ℕ → List (List ℕ) → List StrictSolution
  | 0, _, _ => []
  | remaining + 1, rep, banned =>
      match solver df budget groups banned with
      | none => []
      | some sel =>
          mkStrictSolution df rep sel ::
            strictLoop solver df budget groups remaining (rep + 1) (banned ++ [sel])

/-- Model of `solve_top_k_strict`: match the anchors, fail on unmatched ones (the
`SystemExit` is the `Except.error` case), then run the per-rank loop. -/
def solve_top_k_strict (solver : Solver) (df : List SRow) (budget : ℤ) (k : ℕ)
    (anchors : List String) : Except String (List StrictSolution) :=
  let anchor_groups := match_anchor_indices df anchors
  if anchors.isEmpty then .ok (strictLoop solver df budget anchor_groups k 0 [])
  else
    let unmatched := ((anchors.zip anchor_groups).filter fun p => p.2.isEmpty).map (·.1)
    if unmatched.isEmpty then .ok (strictLoop solver df budget anchor_groups k 0 [])
    else
      .error ("Anchors not found in data (check spelling): " ++
        String.intercalate ", " unmatched)

/-! ## Basic lemmas: lexicographic keys and `pickTop` -/

theorem lexLtZ_iff (a b : ℤ × ℤ) :
    lexLtZ a b = true ↔ a.1 < b.1 ∨ (a.1 = b.1 ∧ a.2 < b.2) := by
  simp [lexLtZ]

theorem lexLtZ_irrefl (a : ℤ × ℤ) : lexLtZ a a = false := by
  simp [lexLtZ]

theorem pickTop_eq_none_iff (key : Player → ℤ × ℤ) (l : List Player) :
    pickTop key l = none ↔ l = [] := by
  cases l <;> simp [pickTop]

theorem pickTop_foldl_spec (key : Player → ℤ × ℤ) :
    ∀ (cs : List Player) (c r : Player),
      cs.foldl (fun acc x => if lexLtZ (key acc) (key x) then x else acc) c = r →
      (r = c ∨ r ∈ cs) ∧ lexLtZ (key r) (key c) = false ∧
        ∀ x ∈ cs, lexLtZ (key r) (key x) = false := by
  intro cs
  induction cs with
  | nil =>
      intro c r h
      simp only [List.foldl_nil] at h
      subst h
      exact ⟨Or.inl rfl, lexLtZ_irrefl _, by simp⟩
  | cons d cs ih =>
      intro c r h
      simp only [List.foldl_cons] at h
      by_cases hlt : lexLtZ (key c) (key d) = true
      · rw [if_pos hlt] at h
        obtain ⟨hmem, hc, hall⟩ := ih d r h
        have hcd := (lexLtZ_iff (key c) (key d)).mp hlt
        have hrd : ¬(lexLtZ (key r) (key d) = true) := by simp [hc]
        rw [lexLtZ_iff] at hrd
        refine ⟨?_, ?_, ?_⟩
        · rcases hmem with rfl | hm
          · exact Or.inr (List.mem_cons_self _ _)
          · exact Or.inr (List.mem_cons_of_mem _ hm)
        · have : ¬(lexLtZ (key r) (key c) = true) := by
            rw [lexLtZ_iff]; omega
          simpa using this
        · intro x hx
          rcases List.mem_cons.mp hx with rfl | hx'
          · exact hc
          · exact hall x hx'
      · rw [if_neg hlt] at h
        obtain ⟨hmem, hc, hall⟩ := ih c r h
        have hcd : ¬(lexLtZ (key c) (key d) = true) := hlt
        rw [lexLtZ_iff] at hcd
        have hrc : ¬(lexLtZ (key r) (key c) = true) := by simp [hc]
        rw [lexLtZ_iff] at hrc
        refine ⟨?_, hc, ?_⟩
        · rcases hmem with rfl | hm
          · exact Or.inl rfl
          · exact Or.inr (List.mem_cons_of_mem _ hm)
        · intro x hx
          rcases List.mem_cons.mp hx with rfl | hx'
          · have : ¬(lexLtZ (key r) (key x) = true) := by
              rw [lexLtZ_iff]; omega
            simpa using this
          · exact hall x hx'

theorem pickTop_spec (key : Player → ℤ × ℤ) (l : List Player) (r : Player)
    (h : pickTop key l = some r) :
    r ∈ l ∧ ∀ x ∈ l, lexLtZ (key r) (key x) = false := by
  cases l with
  | nil => simp [pickTop] at h
  | cons c cs =>
      simp only [pickTop, Option.some.injEq] at h
      obtain ⟨hmem, hc, hall⟩ := pickTop_foldl_spec key cs c r h
      refine ⟨?_, ?_⟩
      · rcases hmem with rfl | hm
        · exact List.mem_cons_self _ _
        · exact List.mem_cons_of_mem _ hm
      · intro x hx
        rcases List.mem_cons.mp hx with rfl | hx'
        · exact hc
        · exact hall x hx'

theorem pickTop_mem (key : Player → ℤ × ℤ) (l : List Player) (r : Player)
    (h : pickTop key l = some r) : r ∈ l :=
  (pickTop_spec key l r h).1

/-! ## Basic lemmas: slots, players, `setPlayer` -/

/-- Names of the bound players, in slot order. -/
def namesOf (slots : List Slot) : List Player := _slots_players slots

theorem _slots_players_cons (s : Slot) (rest : List Slot) :
    _slots_players (s :: rest) =
      match s.player with
      | some p => p :: _slots_players rest
      | none => _slots_players rest := by
  cases h : s.player <;> simp [_slots_players, List.filterMap_cons, h]

theorem mem_slots_players_iff (slots : List Slot) (p : Player) :
    p ∈ _slots_players slots ↔ ∃ i s, slots.get? i = some s ∧ s.player = some p := by
  induction slots with
  | nil => simp [_slots_players]
  | cons s rest ih =>
      rw [_slots_players_cons]
      cases h : s.player with
      | none =>
          rw [ih]
          constructor
          · rintro ⟨i, t, hget, hp⟩
            exact ⟨i + 1, t, by simpa using hget, hp⟩
          · rintro ⟨i, t, hget, hp⟩
            cases i with
            | zero =>
                simp only [List.get?_cons_zero, Option.some.injEq] at hget
                subst hget; rw [h] at hp; cases hp
            | succ n => exact ⟨n, t, by simpa using hget, hp⟩
      | some q =>
          simp only [List.mem_cons, ih]
          constructor
          · rintro (rfl | ⟨i, t, hget, hp⟩)
            · exact ⟨0, s, by simp, h⟩
            · exact ⟨i + 1, t, by simpa using hget, hp⟩
          · rintro ⟨i, t, hget, hp⟩
            cases i with
            | zero =>
                simp only [List.get?_cons_zero, Option.some.injEq] at hget
                subst hget; rw [h] at hp
                exact Or.inl (Option.some.injEq _ _ ▸ hp.symm)
            | succ n => exact Or.inr ⟨n, t, by simpa using hget, hp⟩

theorem enum_get? {slots : List Slot} {i : ℕ} {s : Slot} (h : (i, s) ∈ slots.enum) :
    slots.get? i = some s := by
  obtain ⟨hlen, hs⟩ := List.mem_enum h
  rw [hs, List.get?_eq_getElem?, List.getElem?_eq_getElem hlen]

theorem setPlayer_get?_ne (rep : Player) :
    ∀ (slots : List Slot) (i j : ℕ), i ≠ j →
      (setPlayer slots i rep).get? j = slots.get? j := by
  intro slots
  induction slots with
  | nil => intro i j _; simp [setPlayer]
  | cons s rest ih =>
      intro i j hne
      cases i with
      | zero =>
          cases j with
          | zero => exact absurd rfl hne
          | succ m => simp [setPlayer]
      | succ n =>
          cases j with
          | zero => simp [setPlayer]
          | succ m => simpa [setPlayer] using ih n m (by omega)

theorem setPlayer_players_decomp (rep : Player) :
    ∀ (slots : List Slot) (i : ℕ) (s : Slot) (cur : Player),
      slots.get? i = some s → s.player = some cur →
      ∃ pre post, _slots_players slots = pre ++ cur :: post ∧
        _slots_players (setPlayer slots i rep) = pre ++ rep :: post := by
  intro slots
  induction slots with
  | nil => intro i s cur h; simp at h
  | cons t rest ih =>
      intro i s cur hget hp
      cases i with
      | zero =>
          simp only [List.get?_cons_zero, Option.some.injEq] at hget
          subst hget
          refine ⟨[], _slots_players rest, ?_, ?_⟩
          · rw [_slots_players_cons, hp]; simp
          · simp only [setPlayer]
            rw [_slots_players_cons]
            simp
      | succ n =>
          simp only [List.get?_cons_succ] at hget
          obtain ⟨pre, post, h1, h2⟩ := ih n s cur hget hp
          cases hq : t.player with
          | none =>
              refine ⟨pre, post, ?_, ?_⟩
              · rw [_slots_players_cons, hq]; exact h1
              · simp only [setPlayer]; rw [_slots_players_cons, hq]; exact h2
          | some q =>
              refine ⟨q :: pre, post, ?_, ?_⟩
              · rw [_slots_players_cons, hq, h1]; simp
              · simp only [setPlayer]; rw [_slots_players_cons, hq, h2]; simp

theorem setPlayer_spent (rep : Player) :
    ∀ (slots : List Slot) (i : ℕ) (s : Slot) (cur : Player),
      slots.get? i = some s → s.player = some cur →
      _slots_spent (setPlayer slots i rep) = _slots_spent slots + (rep.Price - cur.Price) := by
  intro slots
  induction slots with
  | nil => intro i s cur h; simp at h
  | cons t rest ih =>
      intro i s cur hget hp
      cases i with
      | zero =>
          simp only [List.get?_cons_zero, Option.some.injEq] at hget
          subst hget
          simp only [setPlayer, _slots_spent, List.map_cons, List.sum_cons, hp]
          simp
          ring
      | succ n =>
          simp only [List.get?_cons_succ] at hget
          have := ih n s cur hget hp
          simp only [setPlayer, _slots_spent, List.map_cons, List.sum_cons] at this ⊢
          omega

/-! ## Soundness of the swap scans -/

/-- What a successful reduce scan guarantees about its result, relative to the
enumerated slot list `M`. -/
def RSwapOK (pool : List Player) (anchorNames chosen : Finset String)
    (M : List (ℕ × Slot)) (b : ℤ × ℕ × Player) : Prop :=
  ∃ s cur, (b.2.1, s) ∈ M ∧ s.player = some cur ∧ cur.Name ∉ anchorNames ∧
    pickTop (fun r => (cur.Price - r.Price, r.Projection)) (reduceCands pool chosen s cur)
      = some b.2.2 ∧
    b.2.2 ∈ reduceCands pool chosen s cur ∧ b.1 = cur.Price - b.2.2.Price

theorem findReduceSwap_sound (pool : List Player) (anchorNames chosen : Finset String)
    (M : List (ℕ × Slot)) :
    ∀ (L : List (ℕ × Slot)) (acc : Option (ℤ × ℕ × Player)),
      (∀ x ∈ L, x ∈ M) →
      (∀ b, acc = some b → RSwapOK pool anchorNames chosen M b) →
      ∀ b, findReduceSwap pool anchorNames chosen L acc = some b →
        RSwapOK pool anchorNames chosen M b := by
  intro L
  induction L with
  | nil => intro acc _ hacc b h; exact hacc b h
  | cons hd rest ih =>
      obtain ⟨i, s⟩ := hd
      intro acc hsub hacc b h
      have hdM : (i, s) ∈ M := hsub _ (List.mem_cons_self _ _)
      have hsub' : ∀ x ∈ rest, x ∈ M := fun x hx => hsub x (List.mem_cons_of_mem _ hx)
      rw [findReduceSwap] at h
      refine ih _ hsub' ?_ b h
      intro b0 hb0
      split at hb0
      · exact hacc b0 hb0
      · rename_i cur hsp
        split at hb0
        · exact hacc b0 hb0
        · rename_i hanc
          split at hb0
          · exact hacc b0 hb0
          · rename_i rep hpk
            have hrep : rep ∈ reduceCands pool chosen s cur := pickTop_mem _ _ _ hpk
            have hOK : RSwapOK pool anchorNames chosen M (cur.Price - rep.Price, i, rep) :=
              ⟨s, cur, hdM, hsp, hanc, hpk, hrep, rfl⟩
            split at hb0
            · injection hb0 with hb0'
              exact hb0' ▸ hOK
            · rename_i b1
              have hb0' : (if b1.1 < cur.Price - rep.Price then
                    some (cur.Price - rep.Price, i, rep) else some b1) = some b0 := hb0
              by_cases hc : b1.1 < cur.Price - rep.Price
              · rw [if_pos hc] at hb0'
                injection hb0' with h1
                exact h1 ▸ hOK
              · rw [if_neg hc] at hb0'
                injection hb0' with h1
                exact h1 ▸ hacc b1 rfl

/-- What a successful upgrade scan guarantees about its result. -/
def USwapOK (pool : List Player) (anchorNames chosen : Finset String) (budget_left : ℤ)
    (M : List (ℕ × Slot)) (b : (ℤ × ℤ) × ℕ × Player) : Prop :=
  ∃ s cur, (b.2.1, s) ∈ M ∧ s.player = some cur ∧ cur.Name ∉ anchorNames ∧
    b.2.2 ∈ upgradeCands pool chosen budget_left s cur

theorem upgradeFold_sound (pool : List Player) (anchorNames chosen : Finset String)
    (budget_left : ℤ) (M : List (ℕ × Slot)) (i : ℕ) (s : Slot) (cur : Player)
    (hmem : (i, s) ∈ M) (hp : s.player = some cur) (hanc : cur.Name ∉ anchorNames) :
    ∀ (cands : List Player) (acc : Option ((ℤ × ℤ) × ℕ × Player)),
      (∀ r ∈ cands, r ∈ upgradeCands pool chosen budget_left s cur) →
      (∀ b, acc = some b → USwapOK pool anchorNames chosen budget_left M b) →
      ∀ b,
        cands.foldl
          (fun b0 r =>
            let ratio := mkRatio (r.Projection - cur.Projection) (r.Price - cur.Price)
            match b0 with
            | none => some (ratio, i, r)
            | some b1 => if ratioLt b1.1 ratio then some (ratio, i, r) else some b1)
          acc = some b →
        USwapOK pool anchorNames chosen budget_left M b := by
  intro cands
  induction cands with
  | nil => intro acc _ hacc b h; exact hacc b (by simpa using h)
  | cons r cands ih =>
      intro acc hcs hacc b h
      rw [List.foldl_cons] at h
      have hrOK : USwapOK pool anchorNames chosen budget_left M
          (mkRatio (r.Projection - cur.Projection) (r.Price - cur.Price), i, r) :=
        ⟨s, cur, hmem, hp, hanc, hcs r (List.mem_cons_self _ _)⟩
      have hcs' : ∀ x ∈ cands, x ∈ upgradeCands pool chosen budget_left s cur :=
        fun x hx => hcs x (List.mem_cons_of_mem _ hx)
      refine ih _ hcs' ?_ b h
      intro b0 hb0
      cases acc with
      | none =>
          have hb0' : some (mkRatio (r.Projection - cur.Projection) (r.Price - cur.Price),
              i, r) = some b0 := hb0
          injection hb0' with h1
          exact h1 ▸ hrOK
      | some b1 =>
          have hb0' :
              (if ratioLt b1.1
                  (mkRatio (r.Projection - cur.Projection) (r.Price - cur.Price)) = true then
                some (mkRatio (r.Projection - cur.Projection) (r.Price - cur.Price), i, r)
              else some b1) = some b0 := hb0
          by_cases hc : ratioLt b1.1
              (mkRatio (r.Projection - cur.Projection) (r.Price - cur.Price)) = true
          · rw [if_pos hc] at hb0'
            injection hb0' with h1
            exact h1 ▸ hrOK
          · rw [if_neg hc] at hb0'
            injection hb0' with h1
            exact h1 ▸ hacc b1 rfl

theorem findUpgradeSwap_sound (pool : List Player) (anchorNames chosen : Finset String)
    (budget_left : ℤ) (M : List (ℕ × Slot)) :
    ∀ (L : List (ℕ × Slot)) (acc : Option ((ℤ × ℤ) × ℕ × Player)),
      (∀ x ∈ L, x ∈ M) →
      (∀ b, acc = some b → USwapOK pool anchorNames chosen budget_left M b) →
      ∀ b, findUpgradeSwap pool anchorNames chosen budget_left L acc = some b →
        USwapOK pool anchorNames chosen budget_left M b := by
  intro L
  induction L with
  | nil => intro acc _ hacc b h; exact hacc b h
  | cons hd rest ih =>
      obtain ⟨i, s⟩ := hd
      intro acc hsub hacc b h
      have hdM : (i, s) ∈ M := hsub _ (List.mem_cons_self _ _)
      have hsub' : ∀ x ∈ rest, x ∈ M := fun x hx => hsub x (List.mem_cons_of_mem _ hx)
      rw [findUpgradeSwap] at h
      refine ih _ hsub' ?_ b h
      intro b0 hb0
      split at hb0
      · exact hacc b0 hb0
      · rename_i cur hsp
        split at hb0
        · exact hacc b0 hb0
        · rename_i hanc
          exact upgradeFold_sound pool anchorNames chosen budget_left M i s cur hdM hsp hanc
            (upgradeCands pool chosen budget_left s cur) acc (fun r hr => hr) hacc b0 hb0

/-! ## Candidate-set membership lemmas -/

theorem mem_reduceCands (pool : List Player) (chosen : Finset String) (s : Slot) (cur r : Player) :
    r ∈ reduceCands pool chosen s cur ↔
      r ∈ pool ∧ r.Name ∉ chosen ∧ _slot_allows s.type r.Pos = true ∧ r.Price < cur.Price := by
  simp [reduceCands, List.mem_filter, and_assoc]

theorem mem_upgradeCands (pool : List Player) (chosen : Finset String) (budget_left : ℤ)
    (s : Slot) (cur r : Player) :
    r ∈ upgradeCands pool chosen budget_left s cur ↔
      r ∈ pool ∧ r.Name ∉ chosen ∧ _slot_allows s.type r.Pos = true ∧
        cur.Projection < r.Projection ∧ 0 < r.Price - cur.Price ∧
        r.Price - cur.Price ≤ budget_left := by
  simp [upgradeCands, List.mem_filter, and_assoc]

/-! ## Step lemmas -/

theorem reduceStep_spec (pool : List Player) (anchorNames : Finset String) (st st' : ImpState)
    (h : reduceStep pool anchorNames st = some st') :
    ∃ i s cur rep, st.slots.get? i = some s ∧ s.player = some cur ∧ cur.Name ∉ anchorNames ∧
      rep ∈ reduceCands pool st.chosen s cur ∧ st' = applySwap st i cur rep := by
  unfold reduceStep at h
  cases hf : findReduceSwap pool anchorNames st.chosen st.slots.enum none with
  | none => rw [hf] at h; cases h
  | some b =>
      rw [hf] at h
      obtain ⟨s, cur, hmem, hp, hanc, _, hrep, _⟩ :=
        findReduceSwap_sound pool anchorNames st.chosen st.slots.enum st.slots.enum none
          (fun x hx => hx) (by intro b0 hb0; cases hb0) b hf
      have hget := enum_get? hmem
      have h1 : (match st.slots.get? b.2.1 with
          | some s =>
            match s.player with
            | some cur => some (applySwap st b.2.1 cur b.2.2)
            | none => none
          | none => none) = some st' := h
      rw [hget] at h1
      have h2 : (match s.player with
          | some cur => some (applySwap st b.2.1 cur b.2.2)
          | none => none) = some st' := h1
      rw [hp] at h2
      have h3 : some (applySwap st b.2.1 cur b.2.2) = some st' := h2
      injection h3 with h4
      exact ⟨b.2.1, s, cur, b.2.2, hget, hp, hanc, hrep, h4.symm⟩

theorem upgradeStep_spec (pool : List Player) (anchorNames : Finset String) (budget_left : ℤ)
    (st st' : ImpState) (h : upgradeStep pool anchorNames budget_left st = some st') :
    ∃ i s cur rep, st.slots.get? i = some s ∧ s.player = some cur ∧ cur.Name ∉ anchorNames ∧
      rep ∈ upgradeCands pool st.chosen budget_left s cur ∧ st' = applySwap st i cur rep := by
  unfold upgradeStep at h
  cases hf : findUpgradeSwap pool anchorNames st.chosen budget_left st.slots.enum none with
  | none => rw [hf] at h; cases h
  | some b =>
      rw [hf] at h
      obtain ⟨s, cur, hmem, hp, hanc, hrep⟩ :=
        findUpgradeSwap_sound pool anchorNames st.chosen budget_left st.slots.enum st.slots.enum
          none (fun x hx => hx) (by intro b0 hb0; cases hb0) b hf
      have hget := enum_get? hmem
      have h1 : (match st.slots.get? b.2.1 with
          | some s =>
            match s.player with
            | some cur => some (applySwap st b.2.1 cur b.2.2)
            | none => none
          | none => none) = some st' := h
      rw [hget] at h1
      have h2 : (match s.player with
          | some cur => some (applySwap st b.2.1 cur b.2.2)
          | none => none) = some st' := h1
      rw [hp] at h2
      have h3 : some (applySwap st b.2.1 cur b.2.2) = some st' := h2
      injection h3 with h4
      exact ⟨b.2.1, s, cur, b.2.2, hget, hp, hanc, hrep, h4.symm⟩

/-! ## Generic loop invariants -/

theorem reduceLoop_inv (pool : List Player) (anchorNames : Finset String) (budget : ℤ)
    (P : ImpState → Prop)
    (hstep : ∀ st st', reduceStep pool anchorNames st = some st' → P st → P st') :
    ∀ (fuel : ℕ) (st : ImpState), P st → P (reduceLoop pool anchorNames budget fuel st) := by
  intro fuel
  induction fuel with
  | zero => intro st h; exact h
  | succ n ih =>
      intro st h
      rw [reduceLoop]
      by_cases hb : st.spent ≤ budget
      · rw [if_pos hb]; exact h
      · rw [if_neg hb]
        cases hs : reduceStep pool anchorNames st with
        | none => exact h
        | some st' => exact ih st' (hstep st st' hs h)

theorem upgradeLoop_inv (pool : List Player) (anchorNames : Finset String) (budget : ℤ)
    (P : ImpState → Prop)
    (hstep : ∀ st st',
      upgradeStep pool anchorNames (budget - st.spent) st = some st' → P st → P st') :
    ∀ (fuel : ℕ) (st : ImpState), P st → P (upgradeLoop pool anchorNames budget fuel st) := by
  intro fuel
  induction fuel with
  | zero => intro st h; exact h
  | succ n ih =>
      intro st h
      rw [upgradeLoop]
      show P (if (budget - st.spent) * 1000000000 ≤ 1 then st
        else match upgradeStep pool anchorNames (budget - st.spent) st with
          | none => st
          | some st' => upgradeLoop pool anchorNames budget n st')
      by_cases hb : (budget - st.spent) * 1000000000 ≤ 1
      · rw [if_pos hb]; exact h
      · rw [if_neg hb]
        cases hs : upgradeStep pool anchorNames (budget - st.spent) st with
        | none => exact h
        | some st' => exact ih st' (hstep st st' hs h)

/-! ## Invariant instances -/

theorem applySwap_players_sub (st : ImpState) (i : ℕ) (s : Slot) (cur rep : Player)
    (hget : st.slots.get? i = some s) (hp : s.player = some cur) :
    ∀ p ∈ _slots_players (applySwap st i cur rep).slots,
      p = rep ∨ p ∈ _slots_players st.slots := by
  obtain ⟨pre, post, h1, h2⟩ := setPlayer_players_decomp rep st.slots i s cur hget hp
  intro p hp'
  simp only [applySwap] at hp'
  rw [h2] at hp'
  rcases List.mem_append.mp hp' with hl | hr
  · exact Or.inr (h1 ▸ List.mem_append.mpr (Or.inl hl))
  · rcases List.mem_cons.mp hr with rfl | hr'
    · exact Or.inl rfl
    · exact Or.inr (h1 ▸ List.mem_append.mpr (Or.inr (List.mem_cons_of_mem _ hr')))

/-- Bound players only enter from the pool during improvement. -/
theorem improve_players_sub (pool : List Player) (slots : List Slot) (budget : ℤ)
    (anchors : List Player) :
    ∀ p ∈ _slots_players (_improve_slots_within_budget pool slots budget anchors),
      p ∈ _slots_players slots ∨ p ∈ pool := by
  unfold _improve_slots_within_budget
  have P := fun st : ImpState =>
    ∀ p ∈ _slots_players st.slots, p ∈ _slots_players slots ∨ p ∈ pool
  have hstepR : ∀ st st', reduceStep pool ((anchors.map (·.Name)).toFinset) st = some st' →
      (∀ p ∈ _slots_players st.slots, p ∈ _slots_players slots ∨ p ∈ pool) →
      ∀ p ∈ _slots_players st'.slots, p ∈ _slots_players slots ∨ p ∈ pool := by
    intro st st' hs hP p hp
    obtain ⟨i, s, cur, rep, hget, hpl, _, hrep, rfl⟩ := reduceStep_spec _ _ _ _ hs
    rcases applySwap_players_sub st i s cur rep hget hpl p hp with rfl | hmem
    · exact Or.inr ((mem_reduceCands _ _ _ _ _).mp hrep).1
    · exact hP p hmem
  have hstepU : ∀ (bl : ℤ) st st', upgradeStep pool ((anchors.map (·.Name)).toFinset) bl st
        = some st' →
      (∀ p ∈ _slots_players st.slots, p ∈ _slots_players slots ∨ p ∈ pool) →
      ∀ p ∈ _slots_players st'.slots, p ∈ _slots_players slots ∨ p ∈ pool := by
    intro bl st st' hs hP p hp
    obtain ⟨i, s, cur, rep, hget, hpl, _, hrep, rfl⟩ := upgradeStep_spec _ _ _ _ _ hs
    rcases applySwap_players_sub st i s cur rep hget hpl p hp with rfl | hmem
    · exact Or.inr ((mem_upgradeCands _ _ _ _ _ _).mp hrep).1
    · exact hP p hmem
  refine upgradeLoop_inv _ _ _ _ (fun st st' hs hP => hstepU _ st st' hs hP) _ _ ?_
  refine reduceLoop_inv _ _ _ _ (fun st st' hs hP => hstepR st st' hs hP) _ _ ?_
  exact fun p hp => Or.inl hp

/-- Slots holding an anchor-named player are never modified by the improvement
loops. -/
theorem improve_anchor_locked (pool : List Player) (slots : List Slot) (budget : ℤ)
    (anchors : List Player) (j : ℕ) (s : Slot) (cur : Player)
    (hget : slots.get? j = some s) (hp : s.player = some cur)
    (hanc : cur.Name ∈ (anchors.map (·.Name)).toFinset) :
    ∃ t : List Slot, t = _improve_slots_within_budget pool slots budget anchors ∧
      t.get? j = some s := by
  unfold _improve_slots_within_budget
  refine ⟨_, rfl, ?_⟩
  have key : ∀ st st' : ImpState, (∃ i s' cur' rep,
        st.slots.get? i = some s' ∧ s'.player = some cur' ∧
        cur'.Name ∉ (anchors.map (·.Name)).toFinset ∧ st' = applySwap st i cur' rep) →
      st.slots.get? j = some s → st'.slots.get? j = some s := by
    rintro st st' ⟨i, s', cur', rep, hgi, hpi, hanci, rfl⟩ hj
    have hne : i ≠ j := by
      rintro rfl
      rw [hj] at hgi
      injection hgi with he
      subst he
      rw [hp] at hpi
      injection hpi with he2
      exact hanci (he2 ▸ hanc)
    show (applySwap st i cur' rep).slots.get? j = some s
    simp only [applySwap]
    rw [setPlayer_get?_ne rep st.slots i j hne]
    exact hj
  refine upgradeLoop_inv _ _ _ (fun st => st.slots.get? j = some s) ?_ _ _ ?_
  · intro st st' hs hP
    obtain ⟨i, s', cur', rep, hgi, hpi, hanci, _, rfl⟩ := upgradeStep_spec _ _ _ _ _ hs
    exact key st _ ⟨i, s', cur', rep, hgi, hpi, hanci, rfl⟩ hP
  refine reduceLoop_inv _ _ _ (fun st => st.slots.get? j = some s) ?_ _ _ ?_
  · intro st st' hs hP
    obtain ⟨i, s', cur', rep, hgi, hpi, hanci, _, rfl⟩ := reduceStep_spec _ _ _ _ hs
    exact key st _ ⟨i, s', cur', rep, hgi, hpi, hanci, rfl⟩ hP
  exact hget

theorem setPlayer_projSum (rep : Player) (slots : List Slot) (i : ℕ) (s : Slot) (cur : Player)
    (hget : slots.get? i = some s) (hp : s.player = some cur) :
    ((_slots_players (setPlayer slots i rep)).map (·.Projection)).sum =
      ((_slots_players slots).map (·.Projection)).sum + (rep.Projection - cur.Projection) := by
  obtain ⟨pre, post, h1, h2⟩ := setPlayer_players_decomp rep slots i s cur hget hp
  rw [h1, h2]
  simp only [List.map_append, List.map_cons, List.sum_append, List.sum_cons]
  ring

/-- Agreement of the maintained `chosen_names` set with the bound names, plus
their distinctness. -/
def NamesOK (st : ImpState) : Prop :=
  ((_slots_players st.slots).map (·.Name)).Nodup ∧
  st.chosen = ((_slots_players st.slots).map (·.Name)).toFinset

theorem applySwap_NamesOK (st : ImpState) (i : ℕ) (s : Slot) (cur rep : Player)
    (hget : st.slots.get? i = some s) (hp : s.player = some cur)
    (hrepch : rep.Name ∉ st.chosen) (h : NamesOK st) : NamesOK (applySwap st i cur rep) := by
  obtain ⟨pre, post, h1, h2⟩ := setPlayer_players_decomp rep st.slots i s cur hget hp
  obtain ⟨hnd, hch⟩ := h
  have hrep' : rep.Name ∉ (_slots_players st.slots).map (·.Name) := by
    rw [hch] at hrepch
    simpa using hrepch
  rw [h1] at hnd hrep'
  simp only [List.map_append, List.map_cons, List.mem_append, List.mem_cons] at hnd hrep'
  push_neg at hrep'
  obtain ⟨hrpre, hrcur, hrpost⟩ := hrep'
  have hnd' := List.nodup_middle.mp hnd
  have hcurn := (List.nodup_cons.mp hnd').1
  have hndpp := (List.nodup_cons.mp hnd').2
  have hcpre : cur.Name ∉ pre.map (·.Name) := fun hm =>
    hcurn (List.mem_append.mpr (Or.inl hm))
  have hcpost : cur.Name ∉ post.map (·.Name) := fun hm =>
    hcurn (List.mem_append.mpr (Or.inr hm))
  constructor
  · show ((_slots_players (setPlayer st.slots i rep)).map (·.Name)).Nodup
    rw [h2]
    simp only [List.map_append, List.map_cons]
    refine List.nodup_middle.mpr (List.nodup_cons.mpr ⟨?_, hndpp⟩)
    intro hm
    rcases List.mem_append.mp hm with hm' | hm'
    · exact hrpre hm'
    · exact hrpost hm'
  · show insert rep.Name (st.chosen.erase cur.Name) =
      ((_slots_players (setPlayer st.slots i rep)).map (·.Name)).toFinset
    rw [hch, h1, h2]
    simp only [List.map_append, List.map_cons]
    ext a
    simp only [Finset.mem_insert, Finset.mem_erase, List.mem_toFinset, List.mem_append,
      List.mem_cons]
    constructor
    · rintro (rfl | ⟨hne, hin | rfl | hin⟩)
      · exact Or.inr (Or.inl rfl)
      · exact Or.inl hin
      · exact absurd rfl hne
      · exact Or.inr (Or.inr hin)
    · rintro (hin | rfl | hin)
      · exact Or.inr ⟨fun he => hcpre (he ▸ hin), Or.inl hin⟩
      · exact Or.inl rfl
      · exact Or.inr ⟨fun he => hcpost (he ▸ hin), Or.inr (Or.inr hin)⟩

/-- The improvement loops preserve `NamesOK`. -/
theorem improve_NamesOK (pool : List Player) (slots : List Slot) (budget : ℤ)
    (anchors : List Player)
    (hnd : ((_slots_players slots).map (·.Name)).Nodup) :
    ((_slots_players (_improve_slots_within_budget pool slots budget anchors)).map
      (·.Name)).Nodup := by
  unfold _improve_slots_within_budget
  have hstepR : ∀ st st', reduceStep pool ((anchors.map (·.Name)).toFinset) st = some st' →
      NamesOK st → NamesOK st' := by
    intro st st' hs hP
    obtain ⟨i, s, cur, rep, hget, hpl, _, hrep, rfl⟩ := reduceStep_spec _ _ _ _ hs
    exact applySwap_NamesOK st i s cur rep hget hpl
      ((mem_reduceCands _ _ _ _ _).mp hrep).2.1 hP
  have hstepU : ∀ (bl : ℤ) st st',
      upgradeStep pool ((anchors.map (·.Name)).toFinset) bl st = some st' →
      NamesOK st → NamesOK st' := by
    intro bl st st' hs hP
    obtain ⟨i, s, cur, rep, hget, hpl, _, hrep, rfl⟩ := upgradeStep_spec _ _ _ _ _ hs
    exact applySwap_NamesOK st i s cur rep hget hpl
      ((mem_upgradeCands _ _ _ _ _ _).mp hrep).2.1 hP
  have hfinal : NamesOK (upgradeLoop pool ((anchors.map (·.Name)).toFinset) budget 600
      (reduceLoop pool ((anchors.map (·.Name)).toFinset) budget 200
        { slots := slots
          chosen := ((_slots_players slots).map (·.Name)).toFinset
          spent := _slots_spent slots })) := by
    refine upgradeLoop_inv _ _ _ NamesOK (fun st st' hs hP => hstepU _ st st' hs hP) _ _ ?_
    refine reduceLoop_inv _ _ _ NamesOK hstepR _ _ ?_
    exact ⟨hnd, rfl⟩
  exact hfinal.1

/-! ## Seeding lemmas -/

theorem _slots_players_append (l1 l2 : List Slot) :
    _slots_players (l1 ++ l2) = _slots_players l1 ++ _slots_players l2 := by
  simp [_slots_players, List.filterMap_append]

theorem _slots_players_replicate_none (n : ℕ) (t : String) :
    _slots_players (List.replicate n { type := t, player := none }) = [] := by
  induction n with
  | zero => simp [_slots_players]
  | succ m ih => simpa [List.replicate_succ, _slots_players_cons] using ih

theorem build_slots_players (roster : Roster) :
    _slots_players (_build_slots roster) = [] := by
  simp [_build_slots, _slots_players_append, _slots_players_replicate_none]

theorem assignFirst_decomp (a : Player) (pred : Slot → Bool) :
    ∀ (slots slots' : List Slot), assignFirst a pred slots = some slots' →
      ∃ pre s post, slots = pre ++ s :: post ∧ pred s = true ∧
        slots' = pre ++ { s with player := some a } :: post := by
  intro slots
  induction slots with
  | nil => intro slots' h; cases h
  | cons s rest ih =>
      intro slots' h
      rw [assignFirst] at h
      by_cases hp : pred s = true
      · rw [if_pos hp] at h
        injection h with h'
        exact ⟨[], s, rest, rfl, hp, h'.symm⟩
      · rw [if_neg hp] at h
        cases hrec : assignFirst a pred rest with
        | none => rw [hrec] at h; cases h
        | some rest' =>
            rw [hrec] at h
            simp only [Option.map_some', Option.some.injEq] at h
            obtain ⟨pre, t, post, h1, h2, h3⟩ := ih rest' hrec
            exact ⟨s :: pre, t, post, by rw [h1]; rfl, h2, by rw [← h, h3]; rfl⟩

theorem _assign_anchor_decomp (slots : List Slot) (a : Player) (slots' : List Slot)
    (h : _assign_anchor slots a = some slots') :
    ∃ pre s post, slots = pre ++ s :: post ∧ s.player = none ∧
      slots' = pre ++ { s with player := some a } :: post := by
  unfold _assign_anchor at h
  cases h1 : assignFirst a
      (fun s => s.player.isNone && !(s.type == "FLEX") && _slot_allows s.type a.Pos) slots with
  | some t =>
      rw [h1] at h
      injection h with h'
      subst h'
      obtain ⟨pre, s, post, hd1, hd2, hd3⟩ := assignFirst_decomp _ _ _ _ h1
      refine ⟨pre, s, post, hd1, ?_, hd3⟩
      simp only [Bool.and_eq_true, Option.isNone_iff_eq_none] at hd2
      exact hd2.1.1
  | none =>
      rw [h1] at h
      obtain ⟨pre, s, post, hd1, hd2, hd3⟩ := assignFirst_decomp _ _ _ _ h
      refine ⟨pre, s, post, hd1, ?_, hd3⟩
      simp only [Bool.and_eq_true, Option.isNone_iff_eq_none] at hd2
      exact hd2.1.1

theorem _assign_anchor_players (slots : List Slot) (a : Player) (slots' : List Slot)
    (h : _assign_anchor slots a = some slots') :
    ∃ preP postP, _slots_players slots = preP ++ postP ∧
      _slots_players slots' = preP ++ a :: postP := by
  obtain ⟨pre, s, post, h1, h2, h3⟩ := _assign_anchor_decomp slots a slots' h
  refine ⟨_slots_players pre, _slots_players post, ?_, ?_⟩
  · rw [h1, _slots_players_append, _slots_players_cons, h2]
  · rw [h3, _slots_players_append, _slots_players_cons]

theorem placeAnchors_players_sub :
    ∀ (anchors : List Player) (slots : List Slot) (chosen : Finset String) (spent : ℤ),
      ∀ p ∈ _slots_players (placeAnchors anchors slots chosen spent).1,
        p ∈ _slots_players slots ∨ p ∈ anchors := by
  intro anchors
  induction anchors with
  | nil => intro slots chosen spent p hp; exact Or.inl hp
  | cons a rest ih =>
      intro slots chosen spent p hp
      rw [placeAnchors] at hp
      cases ha : _assign_anchor slots a with
      | none =>
          rw [ha] at hp
          rcases ih slots chosen spent p hp with h | h
          · exact Or.inl h
          · exact Or.inr (List.mem_cons_of_mem _ h)
      | some slots1 =>
          rw [ha] at hp
          rcases ih slots1 _ _ p hp with h | h
          · obtain ⟨preP, postP, h1, h2⟩ := _assign_anchor_players slots a slots1 ha
            rw [h2] at h
            rcases List.mem_append.mp h with h' | h'
            · exact Or.inl (h1 ▸ List.mem_append.mpr (Or.inl h'))
            · rcases List.mem_cons.mp h' with rfl | h''
              · exact Or.inr (List.mem_cons_self _ _)
              · exact Or.inl (h1 ▸ List.mem_append.mpr (Or.inr h''))
          · exact Or.inr (List.mem_cons_of_mem _ h)

theorem fillCheapest_cons_some (pool : List Player) (s : Slot) (rest : List Slot)
    (chosen : Finset String) (spent : ℤ) (q : Player) (h : s.player = some q) :
    fillCheapest pool (s :: rest) chosen spent =
      (s :: (fillCheapest pool rest chosen spent).1,
        (fillCheapest pool rest chosen spent).2.1,
        (fillCheapest pool rest chosen spent).2.2) := by
  obtain ⟨t, pl⟩ := s
  have h' : pl = some q := h
  subst h'
  rfl

theorem fillCheapest_cons_none_pick (pool : List Player) (s : Slot) (rest : List Slot)
    (chosen : Finset String) (spent : ℤ) (pick : Player) (h : s.player = none)
    (hpk : pickTop (fun r => (-r.Price, r.Projection))
      (pool.filter fun r => decide (r.Name ∉ chosen) && _slot_allows s.type r.Pos)
      = some pick) :
    fillCheapest pool (s :: rest) chosen spent =
      ({ s with player := some pick } ::
          (fillCheapest pool rest (insert pick.Name chosen) (spent + pick.Price)).1,
        (fillCheapest pool rest (insert pick.Name chosen) (spent + pick.Price)).2.1,
        (fillCheapest pool rest (insert pick.Name chosen) (spent + pick.Price)).2.2) := by
  obtain ⟨t, pl⟩ := s
  have h' : pl = none := h
  subst h'
  simp only [fillCheapest, hpk]

theorem fillCheapest_cons_none_nopick (pool : List Player) (s : Slot) (rest : List Slot)
    (chosen : Finset String) (spent : ℤ) (h : s.player = none)
    (hpk : pickTop (fun r => (-r.Price, r.Projection))
      (pool.filter fun r => decide (r.Name ∉ chosen) && _slot_allows s.type r.Pos) = none) :
    fillCheapest pool (s :: rest) chosen spent =
      (s :: (fillCheapest pool rest chosen spent).1,
        (fillCheapest pool rest chosen spent).2.1,
        (fillCheapest pool rest chosen spent).2.2) := by
  obtain ⟨t, pl⟩ := s
  have h' : pl = none := h
  subst h'
  simp only [fillCheapest, hpk]

theorem fillCheapest_players_sub (pool : List Player) :
    ∀ (slots : List Slot) (chosen : Finset String) (spent : ℤ),
      ∀ p ∈ _slots_players (fillCheapest pool slots chosen spent).1,
        p ∈ _slots_players slots ∨ p ∈ pool := by
  intro slots
  induction slots with
  | nil => intro chosen spent p hp; simp [fillCheapest, _slots_players] at hp
  | cons s rest ih =>
      intro chosen spent p hp
      cases hsp : s.player with
      | some q =>
          rw [fillCheapest_cons_some pool s rest chosen spent q hsp] at hp
          rw [_slots_players_cons, hsp] at hp ⊢
          rcases List.mem_cons.mp hp with rfl | hp'
          · exact Or.inl (List.mem_cons_self _ _)
          · rcases ih chosen spent p hp' with h | h
            · exact Or.inl (List.mem_cons_of_mem _ h)
            · exact Or.inr h
      | none =>
          cases hpk : pickTop (fun r => (-r.Price, r.Projection))
              (pool.filter fun r => decide (r.Name ∉ chosen) && _slot_allows s.type r.Pos) with
          | some pick =>
              rw [fillCheapest_cons_none_pick pool s rest chosen spent pick hsp hpk] at hp
              rw [_slots_players_cons] at hp
              simp only at hp
              rcases List.mem_cons.mp hp with rfl | hp'
              · exact Or.inr (List.mem_filter.mp (pickTop_mem _ _ _ hpk)).1
              · rw [_slots_players_cons, hsp]
                rcases ih _ _ p hp' with h | h
                · exact Or.inl h
                · exact Or.inr h
          | none =>
              rw [fillCheapest_cons_none_nopick pool s rest chosen spent hsp hpk] at hp
              rw [_slots_players_cons, hsp] at hp
              have hp' : p ∈ _slots_players (fillCheapest pool rest chosen spent).1 := hp
              rcases ih chosen spent p hp' with h | h
              · refine Or.inl ?_
                rw [_slots_players_cons, hsp]
                exact h
              · exact Or.inr h

theorem seed_players_sub (pool anchors : List Player) (roster : Roster) :
    ∀ p ∈ _slots_players (_seed_cheapest_slots pool anchors roster).1,
      p ∈ anchors ∨ p ∈ pool := by
  intro p hp
  unfold _seed_cheapest_slots at hp
  simp only at hp
  rcases fillCheapest_players_sub pool _ _ _ p hp with h | h
  · rcases placeAnchors_players_sub anchors (_build_slots roster) ∅ 0 p h with h' | h'
    · rw [build_slots_players] at h'; cases h'
    · exact Or.inl h'
  · exact Or.inr h

theorem placeAnchors_NamesInv :
    ∀ (anchors : List Player) (slots : List Slot) (chosen : Finset String) (spent : ℤ),
      (anchors.map (·.Name)).Nodup →
      ((_slots_players slots).map (·.Name)).Nodup →
      chosen = ((_slots_players slots).map (·.Name)).toFinset →
      (∀ nm ∈ anchors.map (·.Name), nm ∉ (_slots_players slots).map (·.Name)) →
      ((_slots_players (placeAnchors anchors slots chosen spent).1).map (·.Name)).Nodup ∧
        (placeAnchors anchors slots chosen spent).2.1 =
          ((_slots_players (placeAnchors anchors slots chosen spent).1).map
            (·.Name)).toFinset := by
  intro anchors
  induction anchors with
  | nil => intro slots chosen spent _ hnd hch _; exact ⟨hnd, hch⟩
  | cons a rest ih =>
      intro slots chosen spent hand hnd hch hdisj
      have handr : (rest.map (·.Name)).Nodup := (List.nodup_cons.mp (by simpa using hand)).2
      have hanm : a.Name ∉ rest.map (·.Name) := (List.nodup_cons.mp (by simpa using hand)).1
      rw [placeAnchors]
      cases ha : _assign_anchor slots a with
      | none =>
          exact ih slots chosen spent handr hnd hch
            (fun nm hnm => hdisj nm (List.mem_cons_of_mem _ hnm))
      | some slots1 =>
          obtain ⟨preP, postP, h1, h2⟩ := _assign_anchor_players slots a slots1 ha
          have hnm1 : (_slots_players slots1).map (·.Name) =
              preP.map (·.Name) ++ a.Name :: postP.map (·.Name) := by
            rw [h2]; simp
          have hnm0 : (_slots_players slots).map (·.Name) =
              preP.map (·.Name) ++ postP.map (·.Name) := by
            rw [h1]; simp
          have hannot : a.Name ∉ (_slots_players slots).map (·.Name) :=
            hdisj a.Name (by simp)
          have hnd1 : ((_slots_players slots1).map (·.Name)).Nodup := by
            rw [hnm1]
            refine List.nodup_middle.mpr (List.nodup_cons.mpr ⟨?_, ?_⟩)
            · rw [hnm0] at hannot; exact hannot
            · rw [hnm0] at hnd; exact hnd
          have hch1 : insert a.Name chosen =
              ((_slots_players slots1).map (·.Name)).toFinset := by
            rw [hch, hnm0, hnm1]
            simp only [List.toFinset_append, List.toFinset_cons]
            rw [Finset.union_insert]
          refine ih slots1 _ _ handr hnd1 hch1 ?_
          intro nm hnm
          rw [hnm1]
          simp only [List.mem_append, List.mem_cons]
          rintro (hmem | rfl | hmem)
          · exact hdisj nm (List.mem_cons_of_mem _ hnm) (hnm0 ▸ List.mem_append.mpr
              (Or.inl hmem))
          · exact hanm hnm
          · exact hdisj nm (List.mem_cons_of_mem _ hnm) (hnm0 ▸ List.mem_append.mpr
              (Or.inr hmem))

theorem fillCheapest_NamesInv (pool : List Player) :
    ∀ (slots : List Slot) (chosen : Finset String) (spent : ℤ),
      ((_slots_players slots).map (·.Name)).Nodup →
      (∀ nm ∈ (_slots_players slots).map (·.Name), nm ∈ chosen) →
      ((_slots_players (fillCheapest pool slots chosen spent).1).map (·.Name)).Nodup ∧
      (∀ nm ∈ (_slots_players (fillCheapest pool slots chosen spent).1).map (·.Name),
        nm ∈ (_slots_players slots).map (·.Name) ∨ nm ∉ chosen) := by
  intro slots
  induction slots with
  | nil =>
      intro chosen spent hnd _
      constructor
      · simp [fillCheapest, _slots_players]
      · intro nm hnm
        simp [fillCheapest, _slots_players] at hnm
  | cons s rest ih =>
      intro chosen spent hnd hsub
      cases hsp : s.player with
      | some q =>
          rw [fillCheapest_cons_some pool s rest chosen spent q hsp]
          simp only [_slots_players_cons, hsp, List.map_cons, List.nodup_cons,
            List.mem_cons] at hnd hsub ⊢
          obtain ⟨hq, hndr⟩ := hnd
          obtain ⟨ihnd, ihsub⟩ := ih chosen spent hndr
            (fun nm hnm => hsub nm (Or.inr hnm))
          refine ⟨⟨?_, ihnd⟩, ?_⟩
          · intro hmem
            rcases ihsub q.Name hmem with h | h
            · exact hq h
            · exact h (hsub q.Name (Or.inl rfl))
          · intro nm hnm
            rcases hnm with rfl | hnm'
            · exact Or.inl (Or.inl rfl)
            · rcases ihsub nm hnm' with h | h
              · exact Or.inl (Or.inr h)
              · exact Or.inr h
      | none =>
          cases hpk : pickTop (fun r => (-r.Price, r.Projection))
              (pool.filter fun r => decide (r.Name ∉ chosen) && _slot_allows s.type r.Pos) with
          | some pick =>
              rw [fillCheapest_cons_none_pick pool s rest chosen spent pick hsp hpk]
              have hpick : pick.Name ∉ chosen := by
                have := (List.mem_filter.mp (pickTop_mem _ _ _ hpk)).2
                simp only [Bool.and_eq_true, decide_eq_true_eq] at this
                exact this.1
              simp only [_slots_players_cons, hsp, List.map_cons, List.nodup_cons,
                List.mem_cons] at hnd hsub ⊢
              obtain ⟨ihnd, ihsub⟩ := ih (insert pick.Name chosen) (spent + pick.Price) hnd
                (fun nm hnm => Finset.mem_insert_of_mem (hsub nm hnm))
              refine ⟨⟨?_, ihnd⟩, ?_⟩
              · intro hmem
                rcases ihsub pick.Name hmem with h | h
                · exact hpick (hsub pick.Name h)
                · exact h (Finset.mem_insert_self _ _)
              · intro nm hnm
                rcases hnm with rfl | hnm'
                · exact Or.inr hpick
                · rcases ihsub nm hnm' with h | h
                  · exact Or.inl h
                  · refine Or.inr fun hc => h (Finset.mem_insert_of_mem hc)
          | none =>
              rw [fillCheapest_cons_none_nopick pool s rest chosen spent hsp hpk]
              simp only [_slots_players_cons, hsp] at hnd hsub ⊢
              exact ih chosen spent hnd hsub

/-- The seeded slots have pairwise-distinct bound names whenever the anchors do
and no anchor name collides with an already bound name (the seed starts from
empty slots, so only anchor-name distinctness matters). -/
theorem seed_names_nodup (pool anchors : List Player) (roster : Roster)
    (hand : (anchors.map (·.Name)).Nodup) :
    ((_slots_players (_seed_cheapest_slots pool anchors roster).1).map (·.Name)).Nodup := by
  unfold _seed_cheapest_slots
  simp only
  have hbuild : _slots_players (_build_slots roster) = [] := build_slots_players roster
  obtain ⟨hnd1, hch1⟩ := placeAnchors_NamesInv anchors (_build_slots roster) ∅ 0 hand
    (by rw [hbuild]; simp) (by rw [hbuild]; simp) (by rw [hbuild]; simp)
  obtain ⟨hnd2, _⟩ := fillCheapest_NamesInv pool _ _ _ hnd1
    (fun nm hnm => hch1 ▸ List.mem_toFinset.mpr hnm)
  exact hnd2

/-! ## Results-list lemmas: `push`, diversification, final sort -/

/-- Invariant carried through the `results` list: pairwise-distinct dedup
signatures plus a per-payload property `Q`. -/
def ResultsInv (Q : SolutionPayload → Prop) (results : List SolutionPayload) : Prop :=
  results.Pairwise (fun a b => sigOf a ≠ sigOf b) ∧ ∀ p ∈ results, Q p

theorem push_inv (Q : SolutionPayload → Prop) (results : List SolutionPayload)
    (slots : List Slot) (hQ : Q (make_solution_payload (_slots_players slots)))
    (h : ResultsInv Q results) : ResultsInv Q (push results slots) := by
  unfold push
  by_cases hc : sigOf (make_solution_payload (_slots_players slots)) ∈ results.map sigOf
  · rw [if_pos hc]; exact h
  · rw [if_neg hc]
    constructor
    · rw [List.pairwise_append]
      refine ⟨h.1, List.pairwise_singleton _ _, ?_⟩
      intro a ha b hb
      rw [List.mem_singleton] at hb
      subst hb
      intro heq
      exact hc (heq ▸ List.mem_map_of_mem sigOf ha)
    · intro p hp
      rcases List.mem_append.mp hp with h' | h'
      · exact h.2 p h'
      · rw [List.mem_singleton] at h'
        subst h'
        exact hQ

theorem diversifyInner_cons (pool anchors : List Player) (budget : ℤ) (kcap : ℕ)
    (best_slots : List Slot) (i : ℕ) (cand : Player) (alts : List Player) (tried : ℕ)
    (results : List SolutionPayload) :
    diversifyInner pool anchors budget kcap best_slots i (cand :: alts) tried results =
      (if kcap ≤ (push results (_improve_slots_within_budget pool
            (setPlayer best_slots i cand) budget anchors)).length ∨ 12 ≤ tried + 1 then
        push results (_improve_slots_within_budget pool (setPlayer best_slots i cand)
          budget anchors)
      else
        diversifyInner pool anchors budget kcap best_slots i alts (tried + 1)
          (push results (_improve_slots_within_budget pool (setPlayer best_slots i cand)
            budget anchors))) := by
  rw [diversifyInner]
  by_cases hb : kcap ≤ (push results (_improve_slots_within_budget pool
      (setPlayer best_slots i cand) budget anchors)).length ∨ 12 ≤ tried + 1
  · rw [if_pos (by simpa using hb), if_pos hb]
  · rw [if_neg (by simpa using hb), if_neg hb]

theorem diversifyOuter_cons_none (pool anchors : List Player) (budget : ℤ) (kcap : ℕ)
    (chosenNames anchorNames : Finset String) (best_slots : List Slot) (i : ℕ) (s : Slot)
    (rest : List (ℕ × Slot)) (results : List SolutionPayload) (h : s.player = none) :
    diversifyOuter pool anchors budget kcap chosenNames anchorNames best_slots
        ((i, s) :: rest) results =
      diversifyOuter pool anchors budget kcap chosenNames anchorNames best_slots rest
        results := by
  obtain ⟨t, pl⟩ := s
  have h' : pl = none := h
  subst h'
  rfl

theorem diversifyOuter_cons_some (pool anchors : List Player) (budget : ℤ) (kcap : ℕ)
    (chosenNames anchorNames : Finset String) (best_slots : List Slot) (i : ℕ) (s : Slot)
    (cur : Player) (rest : List (ℕ × Slot)) (results : List SolutionPayload)
    (h : s.player = some cur) :
    diversifyOuter pool anchors budget kcap chosenNames anchorNames best_slots
        ((i, s) :: rest) results =
      (if cur.Name ∈ anchorNames then
        diversifyOuter pool anchors budget kcap chosenNames anchorNames best_slots rest
          results
      else
        if kcap ≤ (diversifyInner pool anchors budget kcap best_slots i
            ((_candidates_by_slot pool s.type).filter fun r =>
              decide (r.Name ∉ chosenNames) && !(r.Name == cur.Name)) 0 results).length then
          diversifyInner pool anchors budget kcap best_slots i
            ((_candidates_by_slot pool s.type).filter fun r =>
              decide (r.Name ∉ chosenNames) && !(r.Name == cur.Name)) 0 results
        else
          diversifyOuter pool anchors budget kcap chosenNames anchorNames best_slots rest
            (diversifyInner pool anchors budget kcap best_slots i
              ((_candidates_by_slot pool s.type).filter fun r =>
                decide (r.Name ∉ chosenNames) && !(r.Name == cur.Name)) 0 results)) := by
  obtain ⟨t, pl⟩ := s
  have h' : pl = some cur := h
  subst h'
  rfl

theorem push_length_le (results : List SolutionPayload) (slots : List Slot) :
    results.length ≤ (push results slots).length := by
  unfold push
  by_cases hc : sigOf (make_solution_payload (_slots_players slots)) ∈ results.map sigOf
  · rw [if_pos hc]
  · rw [if_neg hc]; simp

theorem diversifyInner_length_le (pool anchors : List Player) (budget : ℤ) (kcap : ℕ)
    (best_slots : List Slot) (i : ℕ) :
    ∀ (alts : List Player) (tried : ℕ) (results : List SolutionPayload),
      results.length ≤ (diversifyInner pool anchors budget kcap best_slots i alts tried
        results).length := by
  intro alts
  induction alts with
  | nil => intro tried results; exact le_refl _
  | cons cand alts ih =>
      intro tried results
      rw [diversifyInner_cons]
      by_cases hb : kcap ≤ (push results (_improve_slots_within_budget pool
          (setPlayer best_slots i cand) budget anchors)).length ∨ 12 ≤ tried + 1
      · rw [if_pos hb]
        exact push_length_le _ _
      · rw [if_neg hb]
        exact le_trans (push_length_le _ _) (ih _ _)

theorem diversifyOuter_length_le (pool anchors : List Player) (budget : ℤ) (kcap : ℕ)
    (chosenNames anchorNames : Finset String) (best_slots : List Slot) :
    ∀ (L : List (ℕ × Slot)) (results : List SolutionPayload),
      results.length ≤ (diversifyOuter pool anchors budget kcap chosenNames anchorNames
        best_slots L results).length := by
  intro L
  induction L with
  | nil => intro results; exact le_refl _
  | cons hd rest ih =>
      obtain ⟨i, s⟩ := hd
      intro results
      cases hsp : s.player with
      | none =>
          rw [diversifyOuter_cons_none pool anchors budget kcap chosenNames anchorNames
            best_slots i s rest results hsp]
          exact ih results
      | some cur =>
          rw [diversifyOuter_cons_some pool anchors budget kcap chosenNames anchorNames
            best_slots i s cur rest results hsp]
          by_cases hanc : cur.Name ∈ anchorNames
          · rw [if_pos hanc]; exact ih results
          · rw [if_neg hanc]
            by_cases hk : kcap ≤ (diversifyInner pool anchors budget kcap best_slots i
                ((_candidates_by_slot pool s.type).filter fun r =>
                  decide (r.Name ∉ chosenNames) && !(r.Name == cur.Name)) 0 results).length
            · rw [if_pos hk]
              exact diversifyInner_length_le _ _ _ _ _ _ _ _ _
            · rw [if_neg hk]
              exact le_trans (diversifyInner_length_le _ _ _ _ _ _ _ _ _) (ih _)

theorem diversifyInner_inv (pool anchors : List Player) (budget : ℤ) (kcap : ℕ)
    (best_slots : List Slot) (i : ℕ) (Q : SolutionPayload → Prop) :
    ∀ (alts : List Player) (tried : ℕ) (results : List SolutionPayload),
      (∀ cand ∈ alts, Q (make_solution_payload (_slots_players
        (_improve_slots_within_budget pool (setPlayer best_slots i cand) budget anchors)))) →
      ResultsInv Q results →
      ResultsInv Q (diversifyInner pool anchors budget kcap best_slots i alts tried
        results) := by
  intro alts
  induction alts with
  | nil => intro tried results _ h; exact h
  | cons cand alts ih =>
      intro tried results halts h
      rw [diversifyInner_cons]
      have hpush := push_inv Q results _ (halts cand (List.mem_cons_self _ _)) h
      by_cases hb : kcap ≤ (push results (_improve_slots_within_budget pool
          (setPlayer best_slots i cand) budget anchors)).length ∨ 12 ≤ tried + 1
      · rw [if_pos hb]
        exact hpush
      · rw [if_neg hb]
        exact ih _ _ (fun c hc => halts c (List.mem_cons_of_mem _ hc)) hpush

theorem diversifyOuter_inv (pool anchors : List Player) (budget : ℤ) (kcap : ℕ)
    (chosenNames anchorNames : Finset String) (best_slots : List Slot)
    (Q : SolutionPayload → Prop)
    (hQ : ∀ i s cur cand, (i, s) ∈ best_slots.enum → s.player = some cur →
      cur.Name ∉ anchorNames → cand ∈ _candidates_by_slot pool s.type →
      cand.Name ∉ chosenNames → cand.Name ≠ cur.Name →
      Q (make_solution_payload (_slots_players
        (_improve_slots_within_budget pool (setPlayer best_slots i cand) budget anchors)))) :
    ∀ (L : List (ℕ × Slot)), (∀ x ∈ L, x ∈ best_slots.enum) →
      ∀ (results : List SolutionPayload), ResultsInv Q results →
      ResultsInv Q (diversifyOuter pool anchors budget kcap chosenNames anchorNames
        best_slots L results) := by
  intro L
  induction L with
  | nil => intro _ results h; exact h
  | cons hd rest ih =>
      obtain ⟨i, s⟩ := hd
      intro hsub results h
      have hdM : (i, s) ∈ best_slots.enum := hsub _ (List.mem_cons_self _ _)
      have hsub' : ∀ x ∈ rest, x ∈ best_slots.enum :=
        fun x hx => hsub x (List.mem_cons_of_mem _ hx)
      cases hsp : s.player with
      | none =>
          rw [diversifyOuter_cons_none pool anchors budget kcap chosenNames anchorNames
            best_slots i s rest results hsp]
          exact ih hsub' results h
      | some cur =>
          rw [diversifyOuter_cons_some pool anchors budget kcap chosenNames anchorNames
            best_slots i s cur rest results hsp]
          by_cases hanc : cur.Name ∈ anchorNames
          · rw [if_pos hanc]
            exact ih hsub' results h
          · rw [if_neg hanc]
            have hinner := diversifyInner_inv pool anchors budget kcap best_slots i Q
              ((_candidates_by_slot pool s.type).filter fun r =>
                decide (r.Name ∉ chosenNames) && !(r.Name == cur.Name)) 0 results
              (by
                intro cand hc
                have hc' := List.mem_filter.mp hc
                have hcand := hc'.1
                have hconds := hc'.2
                simp only [Bool.and_eq_true, decide_eq_true_eq, Bool.not_eq_true',
                  beq_eq_false_iff_ne, ne_eq] at hconds
                exact hQ i s cur cand hdM hsp hanc hcand hconds.1 hconds.2) h
            by_cases hk : kcap ≤ (diversifyInner pool anchors budget kcap best_slots i
                ((_candidates_by_slot pool s.type).filter fun r =>
                  decide (r.Name ∉ chosenNames) && !(r.Name == cur.Name)) 0 results).length
            · rw [if_pos hk]
              exact hinner
            · rw [if_neg hk]
              exact ih hsub' _ hinner

theorem mem_candidates_by_slot (pool : List Player) (key : String) (r : Player)
    (h : r ∈ _candidates_by_slot pool key) : r ∈ pool := by
  unfold _candidates_by_slot at h
  have := (List.perm_insertionSort (fun a b : Player => b.Projection ≤ a.Projection)
    _).mem_iff.mp h
  exact (List.mem_filter.mp this).1

/-! ## Exact-engine lemmas -/

theorem feasibleSel_mono (df : List SRow) (budget : ℤ) (groups banned : List (List ℕ))
    (S : List ℕ) (sel : List ℕ) (h : feasibleSel df budget groups (banned ++ [S]) sel) :
    feasibleSel df budget groups banned sel := by
  obtain ⟨h1, h2, h3, h4, h5, h6, h7, h8, h9, h10⟩ := h
  exact ⟨h1, h2, h3, h4, h5, h6, h7, h8, h9,
    fun S' hS' => h10 S' (List.mem_append.mpr (Or.inl hS'))⟩

theorem strictLoop_sols (solver : Solver) (df : List SRow) (budget : ℤ)
    (groups : List (List ℕ))
    (HF : ∀ banned sel, solver df budget groups banned = some sel →
      feasibleSel df budget groups banned sel) :
    ∀ (remaining rep : ℕ) (banned : List (List ℕ)),
      ∀ sol ∈ strictLoop solver df budget groups remaining rep banned,
        feasibleSel df budget groups banned sol.chosen ∧
          sol.players = selRows df sol.chosen ∧
          sol.total_cost = selCost df sol.chosen ∧
          sol.total_points = selPoints df sol.chosen := by
  intro remaining
  induction remaining with
  | zero => intro rep banned sol h; simp [strictLoop] at h
  | succ n ih =>
      intro rep banned sol h
      rw [strictLoop] at h
      cases hs : solver df budget groups banned with
      | none => rw [hs] at h; simp at h
      | some sel =>
          rw [hs] at h
          rcases List.mem_cons.mp h with rfl | h'
          · exact ⟨HF banned sel hs, rfl, rfl, rfl⟩
          · obtain ⟨hf, hpl, hc, hp⟩ := ih (rep + 1) (banned ++ [sel]) sol h'
            exact ⟨feasibleSel_mono _ _ _ _ _ _ hf, hpl, hc, hp⟩

theorem strictLoop_pairwise_banned (solver : Solver) (df : List SRow) (budget : ℤ)
    (groups : List (List ℕ))
    (HF : ∀ banned sel, solver df budget groups banned = some sel →
      feasibleSel df budget groups banned sel) :
    ∀ (remaining rep : ℕ) (banned : List (List ℕ)),
      (strictLoop solver df budget groups remaining rep banned).Pairwise
        fun a b => (a.chosen.filter fun i => decide (i ∈ b.chosen)).length ≤ 6 := by
  intro remaining
  induction remaining with
  | zero => intro rep banned; simp [strictLoop]
  | succ n ih =>
      intro rep banned
      rw [strictLoop]
      cases hs : solver df budget groups banned with
      | none => simp
      | some sel =>
          refine List.Pairwise.cons ?_ (ih (rep + 1) (banned ++ [sel]))
          intro b hb
          obtain ⟨hf, _, _, _⟩ :=
            strictLoop_sols solver df budget groups HF n (rep + 1) (banned ++ [sel]) b hb
          exact hf.2.2.2.2.2.2.2.2.2 sel (List.mem_append.mpr (Or.inr
            (List.mem_singleton.mpr rfl)))

theorem strictLoop_pairwise (solver : Solver) (df : List SRow) (budget : ℤ)
    (groups : List (List ℕ))
    (HF : ∀ banned sel, solver df budget groups banned = some sel →
      feasibleSel df budget groups banned sel)
    (HO : ∀ banned sel, solver df budget groups banned = some sel →
      ∀ y, feasibleSel df budget groups banned y → selPoints df y ≤ selPoints df sel) :
    ∀ (remaining rep : ℕ) (banned : List (List ℕ)),
      (strictLoop solver df budget groups remaining rep banned).Pairwise
        (fun a b => b.total_points ≤ a.total_points ∧
          ((a.chosen.filter fun i => decide (i ∈ b.chosen)).length ≤ 6)) := by
  intro remaining
  induction remaining with
  | zero => intro rep banned; simp [strictLoop]
  | succ n ih =>
      intro rep banned
      rw [strictLoop]
      cases hs : solver df budget groups banned with
      | none => simp
      | some sel =>
          refine List.Pairwise.cons ?_ (ih (rep + 1) (banned ++ [sel]))
          intro b hb
          obtain ⟨hf, _, _, hp⟩ :=
            strictLoop_sols solver df budget groups HF n (rep + 1) (banned ++ [sel]) b hb
          constructor
          · have hfb : feasibleSel df budget groups banned b.chosen :=
              feasibleSel_mono _ _ _ _ _ _ hf
            have := HO banned sel hs b.chosen hfb
            rw [hp]
            exact this
          · have hban := hf.2.2.2.2.2.2.2.2.2 sel (List.mem_append.mpr (Or.inr
              (List.mem_singleton.mpr rfl)))
            exact hban

theorem strictLoop_length (solver : Solver) (df : List SRow) (budget : ℤ)
    (groups : List (List ℕ)) :
    ∀ (remaining rep : ℕ) (banned : List (List ℕ)),
      (strictLoop solver df budget groups remaining rep banned).length ≤ remaining := by
  intro remaining
  induction remaining with
  | zero => intro rep banned; simp [strictLoop]
  | succ n ih =>
      intro rep banned
      rw [strictLoop]
      cases solver df budget groups banned with
      | none => simp
      | some sel =>
          simpa using Nat.succ_le_succ (ih (rep + 1) (banned ++ [sel]))

theorem solve_top_k_strict_ok (solver : Solver) (df : List SRow) (budget : ℤ) (k : ℕ)
    (anchors : List String) (sols : List StrictSolution)
    (h : solve_top_k_strict solver df budget k anchors = .ok sols) :
    sols = strictLoop solver df budget (match_anchor_indices df anchors) k 0 [] := by
  unfold solve_top_k_strict at h
  by_cases he : anchors.isEmpty
  · rw [if_pos he] at h
    injection h with h'
    exact h'.symm
  · rw [if_neg he] at h
    by_cases hu : (((anchors.zip (match_anchor_indices df anchors)).filter
        fun p => p.2.isEmpty).map (·.1)).isEmpty
    · rw [if_pos hu] at h
      injection h with h'
      exact h'.symm
    · rw [if_neg hu] at h
      cases h

theorem selRows_sub (df : List SRow) (sel : List ℕ) :
    ∀ row ∈ selRows df sel, row ∈ df := by
  intro row h
  unfold selRows at h
  obtain ⟨i, _, hget⟩ := List.mem_filterMap.mp h
  exact List.get?_mem hget

theorem mem_apply_excludes (df : List SRow) (excludes : List String) (row : SRow)
    (h : row ∈ apply_excludes df excludes) :
    nameMatchesExclude row.Name excludes = false := by
  unfold apply_excludes at h
  by_cases hT : (excludeTerms excludes).isEmpty
  · unfold nameMatchesExclude
    rw [List.isEmpty_iff.mp hT]
    simp
  · rw [if_neg hT] at h
    have := (List.mem_filter.mp h).2
    simpa using this

theorem match_anchor_indices_eq_map (df : List SRow) :
    ∀ (anchors : List String), (∀ a ∈ anchors, anchorKey a ≠ "") →
      match_anchor_indices df anchors = anchors.map (matchIdxs df) := by
  intro anchors
  induction anchors with
  | nil => intro _; rfl
  | cons a rest ih =>
      intro h
      rw [match_anchor_indices, if_neg (h a (List.mem_cons_self _ _)), List.map_cons,
        ih fun x hx => h x (List.mem_cons_of_mem _ hx)]

/-! ## String-order lemmas (for the dedup signature) -/

theorem charListLe_total : ∀ a b : List Char, charListLe a b = true ∨ charListLe b a = true := by
  intro a
  induction a with
  | nil => intro b; exact Or.inl rfl
  | cons x as ih =>
      intro b
      cases b with
      | nil => exact Or.inr rfl
      | cons y bs =>
          by_cases hxy : x < y
          · exact Or.inl (by simp [charListLe, hxy])
          · by_cases hyx : y < x
            · exact Or.inr (by simp [charListLe, hyx])
            · rcases ih bs with h | h
              · exact Or.inl (by simp [charListLe, hxy, hyx, h])
              · exact Or.inr (by simp [charListLe, hxy, hyx, h])

theorem charListLe_trans :
    ∀ a b c : List Char, charListLe a b = true → charListLe b c = true →
      charListLe a c = true := by
  intro a
  induction a with
  | nil => intro b c _ _; rfl
  | cons x as ih =>
      intro b c hab hbc
      cases b with
      | nil => simp [charListLe] at hab
      | cons y bs =>
          cases c with
          | nil => simp [charListLe] at hbc
          | cons z cs =>
              simp only [charListLe] at hab hbc ⊢
              by_cases hxy : x < y <;> by_cases hyz : y < z
              · have hxz : x < z := lt_trans hxy hyz
                simp [hxz]
              · simp only [if_neg hyz] at hbc
                by_cases hzy : z < y
                · simp [hzy] at hbc
                · have hyz' : y = z := le_antisymm (not_lt.mp hzy) (not_lt.mp hyz)
                  subst hyz'
                  simp [hxy]
              · simp only [if_neg hxy] at hab
                by_cases hyx : y < x
                · simp [hyx] at hab
                · have hxy' : x = y := le_antisymm (not_lt.mp hyx) (not_lt.mp hxy)
                  subst hxy'
                  simp [hyz]
              · simp only [if_neg hxy] at hab
                simp only [if_neg hyz] at hbc
                by_cases hyx : y < x
                · simp [hyx] at hab
                · by_cases hzy : z < y
                  · simp [hzy] at hbc
                  · have h1 : x = y := le_antisymm (not_lt.mp hyx) (not_lt.mp hxy)
                    have h2 : y = z := le_antisymm (not_lt.mp hzy) (not_lt.mp hyz)
                    subst h1; subst h2
                    simp only [if_neg (lt_irrefl x)] at hab hbc ⊢
                    exact ih _ _ hab hbc

theorem charListLe_antisymm :
    ∀ a b : List Char, charListLe a b = true → charListLe b a = true → a = b := by
  intro a
  induction a with
  | nil =>
      intro b _ hba
      cases b with
      | nil => rfl
      | cons y bs => simp [charListLe] at hba
  | cons x as ih =>
      intro b hab hba
      cases b with
      | nil => simp [charListLe] at hab
      | cons y bs =>
          simp only [charListLe] at hab hba
          by_cases hxy : x < y
          · rw [if_neg (asymm hxy), if_pos hxy] at hba
            simp at hba
          · by_cases hyx : y < x
            · rw [if_neg (asymm hyx), if_pos hyx] at hab
              simp at hab
            · have h1 : x = y := le_antisymm (not_lt.mp hyx) (not_lt.mp hxy)
              subst h1
              simp only [if_neg (lt_irrefl x)] at hab hba
              rw [ih bs hab hba]

theorem strLe_total (a b : String) : strLe a b = true ∨ strLe b a = true :=
  charListLe_total a.toList b.toList

theorem strLe_trans (a b c : String) (h1 : strLe a b = true) (h2 : strLe b c = true) :
    strLe a c = true :=
  charListLe_trans a.toList b.toList c.toList h1 h2

theorem strLe_antisymm (a b : String) (h1 : strLe a b = true) (h2 : strLe b a = true) :
    a = b := by
  have := charListLe_antisymm a.toList b.toList h1 h2
  cases a; cases b
  simpa [String.toList] using congrArg String.mk this

/-! ## `solve_lineups` pipeline names

The following definitions name the successive `let`-bindings of
`solve_lineups`; `solve_lineups_eq` states (definitionally) that the function
is their composition. -/

def sl_pool (rows : List Player) : List Player := rows.filter fun r => !r.exclude

def sl_anchors (rows : List Player) : List Player := (sl_pool rows).filter fun r => r.anchor

def sl_best (rows : List Player) (budget : ℤ) (roster : Roster) : List Slot :=
  _improve_slots_within_budget (sl_pool rows)
    ((_seed_cheapest_slots (sl_pool rows) (sl_anchors rows) roster).1) budget
    (sl_anchors rows)

def sl_results (rows : List Player) (budget k : ℤ) (roster : Roster) :
    List SolutionPayload :=
  diversifyOuter (sl_pool rows) (sl_anchors rows) budget (max 1 k).toNat
    (((_slots_players (sl_best rows budget roster)).map (·.Name)).toFinset)
    ((sl_anchors rows).map (·.Name)).toFinset (sl_best rows budget roster)
    (sl_best rows budget roster).enum (push [] (sl_best rows budget roster))

theorem solve_lineups_eq (rows : List Player) (budget k : ℤ) (roster : Roster) :
    solve_lineups rows budget k roster =
      ((sl_results rows budget k roster).insertionSort
        fun a b => b.total_projection ≤ a.total_projection).take (max 1 k).toNat := rfl

/-- Transfer of a `ResultsInv` on the diversified results to the returned list. -/
theorem solve_lineups_final (rows : List Player) (budget k : ℤ) (roster : Roster)
    (Q : SolutionPayload → Prop) (h : ResultsInv Q (sl_results rows budget k roster)) :
    (solve_lineups rows budget k roster).Pairwise (fun a b => sigOf a ≠ sigOf b) ∧
      ∀ p ∈ solve_lineups rows budget k roster, Q p := by
  rw [solve_lineups_eq]
  have hperm := List.perm_insertionSort
    (fun a b : SolutionPayload => b.total_projection ≤ a.total_projection)
    (sl_results rows budget k roster)
  constructor
  · refine List.Pairwise.sublist (List.take_sublist _ _) ?_
    exact (hperm.pairwise_iff fun hxy => Ne.symm hxy).mpr h.1
  · intro p hp
    exact h.2 p (hperm.subset ((List.take_sublist _ _).subset hp))

theorem setPlayer_players_sub' (slots : List Slot) (i : ℕ) (s : Slot) (cur rep : Player)
    (hget : slots.get? i = some s) (hp : s.player = some cur) :
    ∀ p ∈ _slots_players (setPlayer slots i rep), p = rep ∨ p ∈ _slots_players slots := by
  obtain ⟨pre, post, h1, h2⟩ := setPlayer_players_decomp rep slots i s cur hget hp
  intro p hp'
  rw [h2] at hp'
  rcases List.mem_append.mp hp' with hl | hr
  · exact Or.inr (h1 ▸ List.mem_append.mpr (Or.inl hl))
  · rcases List.mem_cons.mp hr with rfl | hr'
    · exact Or.inl rfl
    · exact Or.inr (h1 ▸ List.mem_append.mpr (Or.inr (List.mem_cons_of_mem _ hr')))

theorem setPlayer_names_nodup (slots : List Slot) (i : ℕ) (s : Slot) (cur rep : Player)
    (hget : slots.get? i = some s) (hp : s.player = some cur)
    (hnd : ((_slots_players slots).map (·.Name)).Nodup)
    (hrep : rep.Name ∉ (_slots_players slots).map (·.Name)) :
    ((_slots_players (setPlayer slots i rep)).map (·.Name)).Nodup := by
  obtain ⟨pre, post, h1, h2⟩ := setPlayer_players_decomp rep slots i s cur hget hp
  rw [h1] at hnd hrep
  rw [h2]
  simp only [List.map_append, List.map_cons, List.mem_append, List.mem_cons] at hnd hrep ⊢
  push_neg at hrep
  refine List.nodup_middle.mpr (List.nodup_cons.mpr ⟨?_, (List.nodup_cons.mp
    (List.nodup_middle.mp hnd)).2⟩)
  intro hm
  rcases List.mem_append.mp hm with hm' | hm'
  · exact hrep.1 hm'
  · exact hrep.2.2 hm'

/-- Packaged transfer: a per-payload property that holds of the best solution
and of every diversification trial holds of every payload in the diversified
results list, together with signature distinctness. -/
theorem sl_results_inv (rows : List Player) (budget k : ℤ) (roster : Roster)
    (Q : SolutionPayload → Prop)
    (hQbest : Q (make_solution_payload (_slots_players (sl_best rows budget roster))))
    (hQtrial : ∀ i s cur cand, (i, s) ∈ (sl_best rows budget roster).enum →
      s.player = some cur → cur.Name ∉ ((sl_anchors rows).map (·.Name)).toFinset →
      cand ∈ _candidates_by_slot (sl_pool rows) s.type →
      cand.Name ∉ ((_slots_players (sl_best rows budget roster)).map (·.Name)).toFinset →
      cand.Name ≠ cur.Name →
      Q (make_solution_payload (_slots_players (_improve_slots_within_budget (sl_pool rows)
        (setPlayer (sl_best rows budget roster) i cand) budget (sl_anchors rows))))) :
    ResultsInv Q (sl_results rows budget k roster) := by
  unfold sl_results
  refine diversifyOuter_inv (sl_pool rows) (sl_anchors rows) budget (max 1 k).toNat
    _ _ _ Q hQtrial _ (fun x hx => hx) _ ?_
  refine push_inv Q [] _ hQbest ⟨List.Pairwise.nil, by simp⟩

/-! ## C10 -/

/-- C10: `solve_lineups` returns a non-empty list for every input — the
seeded-and-improved best solution is always pushed before diversification, and
the truncation bound `max(1, k)` is at least 1 even when `k ≤ 0`. -/
theorem ff_c10 (rows : List Player) (budget k : ℤ) (roster : Roster) :
    1 ≤ (solve_lineups rows budget k roster).length := by
  rw [solve_lineups_eq, List.length_take,
    (List.perm_insertionSort (fun a b : SolutionPayload =>
      b.total_projection ≤ a.total_projection) _).length_eq]
  have h1 : 1 ≤ (sl_results rows budget k roster).length := by
    unfold sl_results
    refine le_trans ?_ (diversifyOuter_length_le _ _ _ _ _ _ _ _ _)
    have hpush : (push [] (sl_best rows budget roster)).length = 1 := by
      unfold push
      rw [if_neg (by simp)]
      simp
    omega
  have h2 : 1 ≤ (max 1 k).toNat := by
    have := le_max_left 1 k
    omega
  omega

/-! ## C7 -/

/-- C7 counterexample: a row with a present name and position but an
unparsable price (`float` raises, modelled `Price := none`) is NOT dropped by
`parse_rows` — it is kept with price `0.0`, refuting the claim that items with
an unparsable price or projection are dropped. -/
theorem ff_c7_counterexample :
    ({ Name := some "A", Pos := some "QB", Projection := some 5 } : RawRow).Price = none ∧
    parse_rows [{ Name := some "A", Pos := some "QB", Projection := some 5 }] =
      [{ Name := "A", Pos := "QB", Price := 0, Projection := 5 }] := by
  constructor
  · rfl
  · decide

/-- C7 (amended): rows with a missing/empty name or position are dropped
silently; an unparsable (or missing) price or projection is replaced by `0.0`
with the item retained; negative prices and projections are clamped to zero,
so every parsed player has a non-empty name and position and non-negative
price and projection. -/
theorem ff_c7 (rows : List RawRow) :
    (∀ p ∈ parse_rows rows,
      p.Name ≠ "" ∧ p.Pos ≠ "" ∧ 0 ≤ p.Price ∧ 0 ≤ p.Projection) ∧
    (∀ r ∈ rows, strip (orElseStr r.Name (orElseStr r.name "")) = "" ∨
      upper (strip (orElseStr r.Pos (orElseStr r.position ""))) = "" →
      parseRow r = none) ∧
    (∀ r ∈ rows, strip (orElseStr r.Name (orElseStr r.name "")) ≠ "" →
      upper (strip (orElseStr r.Pos (orElseStr r.position ""))) ≠ "" →
      ({ Name := strip (orElseStr r.Name (orElseStr r.name ""))
         Pos := upper (strip (orElseStr r.Pos (orElseStr r.position "")))
         Price := max 0 (r.Price.getD 0)
         Projection := max 0 (r.Projection.getD 0)
         anchor := r.anchor
         exclude := r.exclude } : Player) ∈ parse_rows rows) := by
  refine ⟨?_, ?_, ?_⟩
  · intro p hp
    obtain ⟨r, _, hpr⟩ := List.mem_filterMap.mp hp
    unfold parseRow at hpr
    dsimp only at hpr
    split at hpr
    · cases hpr
    · rename_i hcond
      simp only [Bool.or_eq_true, decide_eq_true_eq, not_or] at hcond
      injection hpr with hpr'
      subst hpr'
      exact ⟨hcond.1, hcond.2, le_max_left _ _, le_max_left _ _⟩
  · intro r _ hcond
    unfold parseRow
    dsimp only
    rw [if_pos]
    rcases hcond with h | h <;> simp [h]
  · intro r hr h1 h2
    refine List.mem_filterMap.mpr ⟨r, hr, ?_⟩
    unfold parseRow
    dsimp only
    rw [if_neg (by simp [h1, h2])]

/-- C7 witness: the amended theorem applied at a concrete row list. -/
theorem ff_c7_witness :
    ({ Name := "A", Pos := "QB", Price := 0, Projection := 5 } : Player) ∈
      parse_rows [{ Name := some "A", Pos := some "QB", Projection := some 5 }] := by
  have h := (ff_c7 [{ Name := some "A", Pos := some "QB", Projection := some 5 }]).2.2
    { Name := some "A", Pos := some "QB", Projection := some 5 }
    (List.mem_cons_self _ _) (by decide) (by decide)
  simpa using h

/-! ## C8 -/

/-- C8 counterexample: in the frame containing only "John Smith", the anchor
string "Nosuch" matches zero pool indices, yet because the preceding anchor
"!!!" has an empty simplified key and is skipped by `match_anchor_indices`,
the `zip` in `solve_top_k_strict` mis-pairs anchors with groups and the raised
failure message names "!!!"` and not "Nosuch" — refuting that the message
names every unmatched anchor. -/
theorem ff_c8_counterexample :
    matchIdxs [⟨"John Smith", "johnsmith", "QB", 1, 1⟩] "Nosuch" = [] ∧
    solve_top_k_strict (fun _ _ _ _ => none) [⟨"John Smith", "johnsmith", "QB", 1, 1⟩]
        100 1 ["!!!", "Nosuch"] =
      .error "Anchors not found in data (check spelling): !!!" ∧
    containsSub "Anchors not found in data (check spelling): !!!".toList
      "Nosuch".toList = false := by
  refine ⟨by decide, ?_, by decide⟩
  rfl

/-- C8 (amended): provided every anchor string has a non-empty simplified
(alphanumeric) key, any anchor matching zero pool indices causes a hard,
user-facing failure raised before any solver invocation, whose message names
exactly the unmatched anchors; an anchor whose simplified key is empty is
instead silently skipped by `match_anchor_indices`, which shifts the
anchor/group pairing and can misname the reported anchors. -/
theorem ff_c8 (solver : Solver) (df : List SRow) (budget : ℤ) (k : ℕ)
    (anchors : List String) (hk : ∀ a ∈ anchors, anchorKey a ≠ "")
    (hex : ∃ a ∈ anchors, matchIdxs df a = []) :
    solve_top_k_strict solver df budget k anchors =
      .error ("Anchors not found in data (check spelling): " ++
        String.intercalate ", " (anchors.filter fun a => (matchIdxs df a).isEmpty)) := by
  obtain ⟨a0, ha0, hm0⟩ := hex
  have hne : anchors ≠ [] := by rintro rfl; cases ha0
  unfold solve_top_k_strict
  rw [match_anchor_indices_eq_map df anchors hk]
  rw [if_neg (by simpa [List.isEmpty_iff] using hne)]
  have hzip : anchors.zip (anchors.map (matchIdxs df)) =
      anchors.map fun a => (a, matchIdxs df a) := by
    have := List.zip_map' id (matchIdxs df) anchors
    simpa using this
  rw [hzip, List.filter_map]
  have hcomp : ((fun p : String × List ℕ => p.2.isEmpty) ∘ fun a => (a, matchIdxs df a)) =
      fun a => (matchIdxs df a).isEmpty := rfl
  rw [hcomp]
  rw [List.map_map]
  have hmap1 : ((fun p : String × List ℕ => p.1) ∘ fun a => (a, matchIdxs df a)) =
      fun a : String => a := rfl
  rw [hmap1, List.map_id']
  dsimp only
  rw [if_neg]
  intro hempty
  rw [List.isEmpty_iff] at hempty
  have : a0 ∈ anchors.filter fun a => (matchIdxs df a).isEmpty :=
    List.mem_filter.mpr ⟨ha0, by simp [hm0]⟩
  rw [hempty] at this
  cases this

/-- C8 witness: the amended theorem applied at a concrete frame and anchor
list with a non-empty key that matches nothing. -/
theorem ff_c8_witness :
    solve_top_k_strict (fun _ _ _ _ => none) [⟨"John Smith", "johnsmith", "QB", 1, 1⟩]
        100 1 ["Nosuch"] =
      .error ("Anchors not found in data (check spelling): " ++
        String.intercalate ", " (["Nosuch"].filter fun a =>
          (matchIdxs [⟨"John Smith", "johnsmith", "QB", 1, 1⟩] a).isEmpty)) := by
  exact ff_c8 (fun _ _ _ _ => none) [⟨"John Smith", "johnsmith", "QB", 1, 1⟩] 100 1
    ["Nosuch"] (by decide) ⟨"Nosuch", List.mem_cons_self _ _, by decide⟩

/-! ## C9 -/

/-- C9: in the heuristic upgrade loop, every applied swap strictly increases
the total projected value, strictly increases the total price by an amount not
exceeding the remaining budget, and consequently the maintained total spent
stays at most the budget after every iteration whenever it was at most the
budget at loop entry. -/
theorem ff_c9 (pool : List Player) (anchorNames : Finset String) (budget : ℤ) :
    (∀ st st', upgradeStep pool anchorNames (budget - st.spent) st = some st' →
      ∃ i s cur rep, st.slots.get? i = some s ∧ s.player = some cur ∧
        cur.Name ∉ anchorNames ∧
        cur.Projection < rep.Projection ∧
        0 < rep.Price - cur.Price ∧
        rep.Price - cur.Price ≤ budget - st.spent ∧
        st' = applySwap st i cur rep ∧
        st'.spent = st.spent + (rep.Price - cur.Price) ∧
        ((_slots_players st'.slots).map (·.Projection)).sum =
          ((_slots_players st.slots).map (·.Projection)).sum +
            (rep.Projection - cur.Projection) ∧
        st'.spent ≤ budget) ∧
    (∀ (fuel : ℕ) (st : ImpState), st.spent ≤ budget →
      (upgradeLoop pool anchorNames budget fuel st).spent ≤ budget) := by
  have hstep : ∀ st st', upgradeStep pool anchorNames (budget - st.spent) st = some st' →
      ∃ i s cur rep, st.slots.get? i = some s ∧ s.player = some cur ∧
        cur.Name ∉ anchorNames ∧
        cur.Projection < rep.Projection ∧
        0 < rep.Price - cur.Price ∧
        rep.Price - cur.Price ≤ budget - st.spent ∧
        st' = applySwap st i cur rep ∧
        st'.spent = st.spent + (rep.Price - cur.Price) ∧
        ((_slots_players st'.slots).map (·.Projection)).sum =
          ((_slots_players st.slots).map (·.Projection)).sum +
            (rep.Projection - cur.Projection) ∧
        st'.spent ≤ budget := by
    intro st st' hs
    obtain ⟨i, s, cur, rep, hget, hpl, hanc, hrep, rfl⟩ := upgradeStep_spec _ _ _ _ _ hs
    obtain ⟨_, _, _, hproj, hpos, hbl⟩ := (mem_upgradeCands _ _ _ _ _ _).mp hrep
    refine ⟨i, s, cur, rep, hget, hpl, hanc, hproj, hpos, hbl, rfl, rfl, ?_, ?_⟩
    · show ((_slots_players (setPlayer st.slots i rep)).map (·.Projection)).sum = _
      exact setPlayer_projSum rep st.slots i s cur hget hpl
    · show st.spent + (rep.Price - cur.Price) ≤ budget
      omega
  refine ⟨hstep, ?_⟩
  intro fuel st h
  refine upgradeLoop_inv pool anchorNames budget (fun st => st.spent ≤ budget) ?_ fuel st h
  intro st st' hs _
  obtain ⟨_, _, _, _, _, _, _, _, _, _, _, _, _, hle⟩ := hstep st st' hs
  exact hle

/-- Concrete states for the C9 witness. -/
def c9wSt : ImpState :=
  ⟨[⟨"QB", some ⟨"Q1", "QB", 1, 0, false, false⟩⟩], insert "Q1" ∅, 1⟩

def c9wSt' : ImpState :=
  ⟨[⟨"QB", some ⟨"Q2", "QB", 3, 5, false, false⟩⟩], insert "Q2" ∅, 3⟩

/-- C9 witness: the loop-preservation part applied at a concrete state within
budget, and the step part applied at a concrete state where an upgrade swap is
applied. -/
theorem ff_c9_witness :
    (upgradeLoop [] ∅ 0 600 ⟨[], ∅, 0⟩).spent ≤ 0 ∧
    ∃ (i : ℕ) (s : Slot) (cur rep : Player),
      c9wSt.slots.get? i = some s ∧
      s.player = some cur ∧
      cur.Name ∉ (∅ : Finset String) ∧
      cur.Projection < rep.Projection ∧
      0 < rep.Price - cur.Price ∧
      rep.Price - cur.Price ≤ 10 - c9wSt.spent := by
  constructor
  · exact (ff_c9 [] ∅ 0).2 600 ⟨[], ∅, 0⟩ (by decide)
  · obtain ⟨i, s, cur, rep, h1, h2, h3, h4, h5, h6, _⟩ :=
      (ff_c9 [⟨"Q2", "QB", 3, 5, false, false⟩] ∅ 10).1 c9wSt c9wSt' (by decide)
    exact ⟨i, s, cur, rep, h1, h2, h3, h4, h5, h6⟩

/-! ## C5 -/

/-- Every player bound in the best (seeded-and-improved) solution comes from
the working pool. -/
theorem sl_best_players_sub (rows : List Player) (budget : ℤ) (roster : Roster) :
    ∀ p ∈ _slots_players (sl_best rows budget roster), p ∈ sl_pool rows := by
  intro p hp
  rcases improve_players_sub (sl_pool rows) _ budget (sl_anchors rows) p hp with h | h
  · rcases seed_players_sub (sl_pool rows) (sl_anchors rows) roster p h with h' | h'
    · exact (List.mem_filter.mp h').1
    · exact h'
  · exact h

/-- C5: a player whose exclude flag is set never appears in any solution
returned by the heuristic engine, and no row of a strict solution computed on
the exclude-filtered frame has a name matching an exclude term. -/
theorem ff_c5 :
    (∀ (rows : List Player) (budget k : ℤ) (roster : Roster),
      ∀ sol ∈ solve_lineups rows budget k roster, ∀ p ∈ sol.players,
        p.exclude = false) ∧
    (∀ (solver : Solver) (df : List SRow) (excludes : List String) (budget : ℤ) (k : ℕ)
      (anchors : List String) (sols : List StrictSolution),
      (∀ banned sel, solver (apply_excludes df excludes) budget
          (match_anchor_indices (apply_excludes df excludes) anchors) banned = some sel →
        feasibleSel (apply_excludes df excludes) budget
          (match_anchor_indices (apply_excludes df excludes) anchors) banned sel) →
      solve_top_k_strict solver (apply_excludes df excludes) budget k anchors = .ok sols →
      ∀ sol ∈ sols, ∀ row ∈ sol.players,
        nameMatchesExclude row.Name excludes = false) := by
  constructor
  · intro rows budget k roster
    have hQ : ResultsInv (fun p => ∀ x ∈ p.players, x ∈ sl_pool rows)
        (sl_results rows budget k roster) := by
      refine sl_results_inv rows budget k roster _ ?_ ?_
      · intro x hx
        exact sl_best_players_sub rows budget roster x hx
      · intro i s cur cand hmem hp _ hcand _ _ x hx
        rcases improve_players_sub (sl_pool rows) _ budget (sl_anchors rows) x hx with h | h
        · rcases setPlayer_players_sub' (sl_best rows budget roster) i s cur cand
            (enum_get? hmem) hp x h with rfl | h'
          · exact mem_candidates_by_slot (sl_pool rows) s.type x hcand
          · exact sl_best_players_sub rows budget roster x h'
        · exact h
    intro sol hsol p hp
    have := (solve_lineups_final rows budget k roster _ hQ).2 sol hsol p hp
    have h' := (List.mem_filter.mp this).2
    simpa using h'
  · intro solver df excludes budget k anchors sols HF hok sol hsol row hrow
    have hsols := solve_top_k_strict_ok solver _ budget k anchors sols hok
    subst hsols
    obtain ⟨hf, hpl, _, _⟩ := strictLoop_sols solver _ budget _ HF k 0 [] sol hsol
    rw [hpl] at hrow
    have hmem : row ∈ apply_excludes df excludes := selRows_sub _ _ row hrow
    exact mem_apply_excludes df excludes row hmem

/-- C5 witness: both halves applied at concrete inputs. -/
theorem ff_c5_witness :
    ((⟨"A", "QB", 0, 0, false, false⟩ : Player)).exclude = false ∧
    ∀ sol ∈ ([] : List StrictSolution), ∀ row ∈ sol.players,
      nameMatchesExclude row.Name ["B"] = false := by
  constructor
  · exact ff_c5.1 [⟨"A", "QB", 0, 0, false, false⟩] 0 1 {}
      ⟨[⟨"A", "QB", 0, 0, false, false⟩], 0, 0⟩ (by decide)
      ⟨"A", "QB", 0, 0, false, false⟩ (by decide)
  · intro sol hsol row hrow
    refine ff_c5.2 (fun _ _ _ _ => none) [⟨"B row", "brow", "QB", 1, 1⟩] ["B"] 100 1 [] []
      (fun banned sel h => nomatch h) ?_ sol hsol row hrow
    rfl

/-! ## C2 -/

/-- Direct form of the anchor-slot locking property of
`_improve_slots_within_budget`. -/
theorem improve_anchor_locked' (pool : List Player) (slots : List Slot) (budget : ℤ)
    (anchors : List Player) (j : ℕ) (s : Slot) (cur : Player)
    (hget : slots.get? j = some s) (hp : s.player = some cur)
    (hanc : cur.Name ∈ (anchors.map (·.Name)).toFinset) :
    (_improve_slots_within_budget pool slots budget anchors).get? j = some s := by
  obtain ⟨t, ht, hres⟩ := improve_anchor_locked pool slots budget anchors j s cur hget hp hanc
  exact ht ▸ hres

/-- C2: every seeded anchor appears in every solution returned by the
heuristic engine; a slot bound to an anchor-named player is never swapped by
the cost-reduction or upgrade loops; and (under the solver-feasibility
assumption) every strict solution selects at least one index of each
non-empty anchor group. -/
theorem ff_c2 :
    (∀ (rows : List Player) (budget k : ℤ) (roster : Roster) (a : Player),
      a ∈ sl_anchors rows →
      a ∈ _slots_players ((_seed_cheapest_slots (sl_pool rows) (sl_anchors rows) roster).1) →
      ∀ sol ∈ solve_lineups rows budget k roster, a ∈ sol.players) ∧
    (∀ (pool slots budget anchors j s cur),
      slots.get? j = some s → s.player = some cur →
      cur.Name ∈ (anchors.map (·.Name)).toFinset →
      (_improve_slots_within_budget pool slots budget anchors).get? j = some s) ∧
    (∀ (solver : Solver) (df : List SRow) (budget : ℤ) (k : ℕ) (anchors : List String)
      (sols : List StrictSolution),
      (∀ banned sel, solver df budget (match_anchor_indices df anchors) banned = some sel →
        feasibleSel df budget (match_anchor_indices df anchors) banned sel) →
      solve_top_k_strict solver df budget k anchors = .ok sols →
      ∀ sol ∈ sols, ∀ g ∈ match_anchor_indices df anchors, g ≠ [] →
        ∃ i ∈ g, i ∈ sol.chosen) := by
  refine ⟨?_, fun pool slots budget anchors j s cur => improve_anchor_locked' pool slots
    budget anchors j s cur, ?_⟩
  · intro rows budget k roster a hanc hplaced
    have haname : a.Name ∈ ((sl_anchors rows).map (·.Name)).toFinset :=
      List.mem_toFinset.mpr (List.mem_map_of_mem _ hanc)
    obtain ⟨j, s, hget, hp⟩ := (mem_slots_players_iff _ a).mp hplaced
    have hbestj : (sl_best rows budget roster).get? j = some s :=
      improve_anchor_locked' (sl_pool rows) _ budget (sl_anchors rows) j s a hget hp haname
    have hQ : ResultsInv (fun p => a ∈ p.players) (sl_results rows budget k roster) := by
      refine sl_results_inv rows budget k roster _ ?_ ?_
      · exact (mem_slots_players_iff _ a).mpr ⟨j, s, hbestj, hp⟩
      · intro i s' cur cand hmem hp' hanc' _ _ _
        have hne : i ≠ j := by
          rintro rfl
          rw [enum_get? hmem] at hbestj
          injection hbestj with he
          subst he
          rw [hp] at hp'
          injection hp' with he2
          exact hanc' (he2 ▸ haname)
        have htrialj : (setPlayer (sl_best rows budget roster) i cand).get? j = some s := by
          rw [setPlayer_get?_ne cand _ i j hne]
          exact hbestj
        have := improve_anchor_locked' (sl_pool rows)
          (setPlayer (sl_best rows budget roster) i cand) budget (sl_anchors rows) j s a
          htrialj hp haname
        exact (mem_slots_players_iff _ a).mpr ⟨j, s, this, hp⟩
    intro sol hsol
    exact (solve_lineups_final rows budget k roster _ hQ).2 sol hsol
  · intro solver df budget k anchors sols HF hok sol hsol g hg hgne
    have hsols := solve_top_k_strict_ok solver df budget k anchors sols hok
    subst hsols
    obtain ⟨hf, _, _, _⟩ := strictLoop_sols solver df budget _ HF k 0 [] sol hsol
    exact hf.2.2.2.2.2.2.2.2.1 g hg hgne

/-- Concrete data for the C2 witness: one anchored QB and one ordinary RB. -/
def c2wRows : List Player := [⟨"A", "QB", 0, 5, true, false⟩, ⟨"B", "RB", 0, 3, false, false⟩]

/-- C2 witness: all three parts applied at concrete inputs. -/
theorem ff_c2_witness :
    (⟨"A", "QB", 0, 5, true, false⟩ : Player) ∈
      ({ players := [⟨"A", "QB", 0, 5, true, false⟩, ⟨"B", "RB", 0, 3, false, false⟩],
         total_price := 0, total_projection := 8 } : SolutionPayload).players ∧
    (_improve_slots_within_budget [] [⟨"QB", some ⟨"A", "QB", 0, 5, true, false⟩⟩] 0
      [⟨"A", "QB", 0, 5, true, false⟩]).get? 0 =
        some ⟨"QB", some ⟨"A", "QB", 0, 5, true, false⟩⟩ ∧
    ∀ sol ∈ ([] : List StrictSolution), ∀ g ∈ match_anchor_indices
      [⟨"John Smith", "johnsmith", "QB", 1, 1⟩] ["John"], g ≠ [] →
        ∃ i ∈ g, i ∈ sol.chosen := by
  refine ⟨?_, ?_, ?_⟩
  · exact ff_c2.1 c2wRows 0 2 {} ⟨"A", "QB", 0, 5, true, false⟩ (by decide) (by decide)
      { players := [⟨"A", "QB", 0, 5, true, false⟩, ⟨"B", "RB", 0, 3, false, false⟩],
        total_price := 0, total_projection := 8 } (by decide)
  · exact ff_c2.2.1 [] [⟨"QB", some ⟨"A", "QB", 0, 5, true, false⟩⟩] 0
      [⟨"A", "QB", 0, 5, true, false⟩] 0 ⟨"QB", some ⟨"A", "QB", 0, 5, true, false⟩⟩
      ⟨"A", "QB", 0, 5, true, false⟩ (by decide) (by decide) (by decide)
  · intro sol hsol g hg hgne
    exact ff_c2.2.2 (fun _ _ _ _ => none) [⟨"John Smith", "johnsmith", "QB", 1, 1⟩] 100 1
      ["John"] [] (fun banned sel h => nomatch h) rfl sol hsol g hg hgne

/-! ## C3 -/

/-- Payloads with duplicate-free name lists and equal name sets have equal
dedup signatures (the signature is the canonical sorted form). -/
theorem sigOf_eq_of_toFinset_eq (x y : SolutionPayload)
    (hx : (x.players.map (·.Name)).Nodup) (hy : (y.players.map (·.Name)).Nodup)
    (heq : (x.players.map (·.Name)).toFinset = (y.players.map (·.Name)).toFinset) :
    sigOf x = sigOf y := by
  haveI : IsAntisymm String (fun a b => strLe a b = true) := ⟨strLe_antisymm⟩
  haveI : IsTotal String (fun a b => strLe a b = true) := ⟨strLe_total⟩
  haveI : IsTrans String (fun a b => strLe a b = true) := ⟨strLe_trans⟩
  have hperm : (x.players.map (·.Name)).Perm (y.players.map (·.Name)) :=
    List.perm_of_nodup_nodup_toFinset_eq hx hy heq
  have hperm' : (sigOf x).Perm (sigOf y) :=
    ((List.perm_insertionSort _ _).trans hperm).trans
      (List.perm_insertionSort _ _).symm
  exact List.eq_of_perm_of_sorted hperm'
    (List.sorted_insertionSort _ _) (List.sorted_insertionSort _ _)

/-- Every payload produced by `solve_lineups` has pairwise-distinct player
names whenever the input rows have pairwise-distinct names. -/
theorem sl_results_names_nodup (rows : List Player) (budget k : ℤ) (roster : Roster)
    (hnd : (rows.map (·.Name)).Nodup) :
    ResultsInv (fun p => (p.players.map (·.Name)).Nodup)
      (sl_results rows budget k roster) := by
  have hanod : ((sl_anchors rows).map (·.Name)).Nodup := by
    refine List.Nodup.sublist (List.Sublist.map _ ?_) hnd
    exact (List.filter_sublist _).trans (List.filter_sublist _)
  have hbestnd : ((_slots_players (sl_best rows budget roster)).map (·.Name)).Nodup := by
    unfold sl_best
    exact improve_NamesOK (sl_pool rows) _ budget (sl_anchors rows)
      (seed_names_nodup (sl_pool rows) (sl_anchors rows) roster hanod)
  refine sl_results_inv rows budget k roster _ hbestnd ?_
  intro i s cur cand hmem hp _ _ hch _
  have hch' : cand.Name ∉ (_slots_players (sl_best rows budget roster)).map (·.Name) :=
    fun hc => hch (List.mem_toFinset.mpr hc)
  have htrial : ((_slots_players (setPlayer (sl_best rows budget roster) i cand)).map
      (·.Name)).Nodup :=
    setPlayer_names_nodup _ i s cur cand (enum_get? hmem) hp hbestnd hch'
  exact improve_NamesOK (sl_pool rows) _ budget (sl_anchors rows) htrial

theorem df_name_inj (df : List SRow) (hnd : (df.map (·.Name)).Nodup) {i j : ℕ}
    {ri rj : SRow} (hi : df.get? i = some ri) (hj : df.get? j = some rj)
    (hname : ri.Name = rj.Name) : i = j := by
  have h1 : (df.map (·.Name)).get? i = some ri.Name := by
    rw [List.get?_map, hi]; rfl
  have h2 : (df.map (·.Name)).get? j = some rj.Name := by
    rw [List.get?_map, hj]; rfl
  have hlen : i < (df.map (·.Name)).length := by
    by_contra hge
    rw [List.get?_eq_none.mpr (le_of_not_lt hge)] at h1
    cases h1
  exact List.get?_inj hlen hnd (h1.trans (by rw [hname, ← h2]))

theorem sel_sub_of_names_sub (df : List SRow) (hnd : (df.map (·.Name)).Nodup)
    (sel1 sel2 : List ℕ) (h1 : ∀ i ∈ sel1, i < df.length)
    (hsub : ((selRows df sel1).map (·.Name)).toFinset ⊆
      ((selRows df sel2).map (·.Name)).toFinset) :
    ∀ i ∈ sel1, i ∈ sel2 := by
  intro i hi
  have hilen := h1 i hi
  obtain ⟨ri, hri⟩ : ∃ r, df.get? i = some r := by
    cases hg : df.get? i with
    | none => rw [List.get?_eq_none] at hg; omega
    | some r => exact ⟨r, rfl⟩
  have hmem1 : ri ∈ selRows df sel1 := List.mem_filterMap.mpr ⟨i, hi, hri⟩
  have hname1 : ri.Name ∈ ((selRows df sel2).map (·.Name)).toFinset :=
    hsub (List.mem_toFinset.mpr (List.mem_map_of_mem _ hmem1))
  obtain ⟨rj, hrjmem, hrjname⟩ := List.mem_map.mp (List.mem_toFinset.mp hname1)
  obtain ⟨j, hj, hrj⟩ := List.mem_filterMap.mp hrjmem
  have hij : i = j := df_name_inj df hnd hri hrj hrjname.symm
  exact hij ▸ hj

/-- C3: no two solutions within one returned list share the same player-name
set.  For the heuristic engine the push step keeps dedup signatures pairwise
distinct unconditionally; under the pool invariant that names are unique, the
payload name sets are pairwise distinct; and under the solver-feasibility
assumption the banned-set constraints make the strict solutions' name sets
pairwise distinct as well. -/
theorem ff_c3 :
    (∀ (rows : List Player) (budget k : ℤ) (roster : Roster),
      (solve_lineups rows budget k roster).Pairwise fun x y => sigOf x ≠ sigOf y) ∧
    (∀ (rows : List Player) (budget k : ℤ) (roster : Roster),
      (rows.map (·.Name)).Nodup →
      (solve_lineups rows budget k roster).Pairwise fun x y =>
        (x.players.map (·.Name)).toFinset ≠ (y.players.map (·.Name)).toFinset) ∧
    (∀ (solver : Solver) (df : List SRow) (budget : ℤ) (k : ℕ) (anchors : List String)
      (sols : List StrictSolution),
      (∀ banned sel, solver df budget (match_anchor_indices df anchors) banned = some sel →
        feasibleSel df budget (match_anchor_indices df anchors) banned sel) →
      (df.map (·.Name)).Nodup →
      solve_top_k_strict solver df budget k anchors = .ok sols →
      sols.Pairwise fun a b =>
        (a.players.map (·.Name)).toFinset ≠ (b.players.map (·.Name)).toFinset) := by
  refine ⟨?_, ?_, ?_⟩
  · intro rows budget k roster
    exact (solve_lineups_final rows budget k roster _
      (sl_results_inv rows budget k roster (fun _ => True) trivial
        (fun _ _ _ _ _ _ _ _ _ _ => trivial))).1
  · intro rows budget k roster hnd
    obtain ⟨hpair, hall⟩ := solve_lineups_final rows budget k roster _
      (sl_results_names_nodup rows budget k roster hnd)
    refine hpair.imp_of_mem ?_
    intro x y hx hy hsig heq
    exact hsig (sigOf_eq_of_toFinset_eq x y (hall x hx) (hall y hy) heq)
  · intro solver df budget k anchors sols HF hnd hok
    have hsols := solve_top_k_strict_ok solver df budget k anchors sols hok
    subst hsols
    have hpair := strictLoop_pairwise_banned solver df budget _ HF k 0 []
    refine hpair.imp_of_mem ?_
    intro a b ha hb hban heq
    obtain ⟨hfa, hpla, _, _⟩ := strictLoop_sols solver df budget _ HF k 0 [] a ha
    obtain ⟨hfb, hplb, _, _⟩ := strictLoop_sols solver df budget _ HF k 0 [] b hb
    rw [hpla, hplb] at heq
    have hsub := sel_sub_of_names_sub df hnd a.chosen b.chosen hfa.2.1 (heq ▸ le_refl _)
    have hfilter : (a.chosen.filter fun i => decide (i ∈ b.chosen)) = a.chosen :=
      List.filter_eq_self.mpr fun i hi => by simpa using hsub i hi
    rw [hfilter, hfa.2.2.2.1] at hban
    omega

/-- C3 witness: both set-level halves applied at concrete inputs. -/
theorem ff_c3_witness :
    ((solve_lineups [⟨"C", "QB", 0, 5, false, false⟩, ⟨"D", "RB", 0, 3, false, false⟩]
        0 2 {}).Pairwise fun x y =>
      (x.players.map (·.Name)).toFinset ≠ (y.players.map (·.Name)).toFinset) ∧
    (([] : List StrictSolution).Pairwise fun a b =>
      (a.players.map (·.Name)).toFinset ≠ (b.players.map (·.Name)).toFinset) := by
  constructor
  · exact ff_c3.2.1 [⟨"C", "QB", 0, 5, false, false⟩, ⟨"D", "RB", 0, 3, false, false⟩]
      0 2 {} (by decide)
  · exact ff_c3.2.2 (fun _ _ _ _ => none) [⟨"Jane Roe", "janeroe", "QB", 1, 1⟩] 100 1 []
      [] (fun banned sel h => nomatch h) (by decide) rfl

/-! ## C4 -/

/-- C4: each engine returns at most `k` solutions (for `k ≥ 1`), sorted by
total projected value descending, with no duplicated entries (pairwise
distinct dedup signatures, respectively pairwise distinct selections); when
fewer are found the shorter list is returned as-is. -/
theorem ff_c4 :
    (∀ (rows : List Player) (budget k : ℤ) (roster : Roster), 1 ≤ k →
      (solve_lineups rows budget k roster).length ≤ k.toNat) ∧
    (∀ (rows : List Player) (budget k : ℤ) (roster : Roster),
      (solve_lineups rows budget k roster).Pairwise fun a b =>
        b.total_projection ≤ a.total_projection) ∧
    (∀ (rows : List Player) (budget k : ℤ) (roster : Roster),
      (solve_lineups rows budget k roster).Pairwise fun a b => sigOf a ≠ sigOf b) ∧
    (∀ (solver : Solver) (df : List SRow) (budget : ℤ) (k : ℕ) (anchors : List String)
      (sols : List StrictSolution),
      (∀ banned sel, solver df budget (match_anchor_indices df anchors) banned = some sel →
        feasibleSel df budget (match_anchor_indices df anchors) banned sel) →
      (∀ banned sel, solver df budget (match_anchor_indices df anchors) banned = some sel →
        ∀ y, feasibleSel df budget (match_anchor_indices df anchors) banned y →
          selPoints df y ≤ selPoints df sel) →
      solve_top_k_strict solver df budget k anchors = .ok sols →
      sols.length ≤ k ∧
        (sols.Pairwise fun a b => b.total_points ≤ a.total_points) ∧
        (sols.Pairwise fun a b => a.chosen ≠ b.chosen)) := by
  refine ⟨?_, ?_, ?_, ?_⟩
  · intro rows budget k roster hk
    rw [solve_lineups_eq, List.length_take]
    have : (max 1 k).toNat = k.toNat := by omega
    omega
  · intro rows budget k roster
    rw [solve_lineups_eq]
    haveI : IsTotal SolutionPayload
        (fun a b => b.total_projection ≤ a.total_projection) :=
      ⟨fun a b => le_total b.total_projection a.total_projection⟩
    haveI : IsTrans SolutionPayload
        (fun a b => b.total_projection ≤ a.total_projection) :=
      ⟨fun _ _ _ hab hbc => le_trans hbc hab⟩
    exact List.Pairwise.sublist (List.take_sublist _ _)
      (List.sorted_insertionSort _ _)
  · intro rows budget k roster
    exact (solve_lineups_final rows budget k roster _
      (sl_results_inv rows budget k roster (fun _ => True) trivial
        (fun _ _ _ _ _ _ _ _ _ _ => trivial))).1
  · intro solver df budget k anchors sols HF HO hok
    have hsols := solve_top_k_strict_ok solver df budget k anchors sols hok
    subst hsols
    refine ⟨strictLoop_length solver df budget _ k 0 [], ?_, ?_⟩
    · exact (strictLoop_pairwise solver df budget _ HF HO k 0 []).imp fun h => h.1
    · have hpair := strictLoop_pairwise_banned solver df budget _ HF k 0 []
      refine hpair.imp_of_mem ?_
      intro a b ha hb hban heq
      obtain ⟨hfa, _, _, _⟩ := strictLoop_sols solver df budget _ HF k 0 [] a ha
      have hfilter : (a.chosen.filter fun i => decide (i ∈ b.chosen)) = a.chosen :=
        List.filter_eq_self.mpr fun i hi => by
          simp only [decide_eq_true_eq]
          exact heq ▸ hi
      rw [hfilter, hfa.2.2.2.1] at hban
      omega

/-- C4 witness: the heuristic length bound at `k = 1` and the exact-engine
conjunction at a trivial solver. -/
theorem ff_c4_witness :
    (solve_lineups [⟨"E", "QB", 0, 5, false, false⟩] 0 1 {}).length ≤ (1 : ℤ).toNat ∧
    (([] : List StrictSolution).length ≤ 1 ∧
      (([] : List StrictSolution).Pairwise fun a b => b.total_points ≤ a.total_points) ∧
      (([] : List StrictSolution).Pairwise fun a b => a.chosen ≠ b.chosen)) := by
  constructor
  · exact ff_c4.1 [⟨"E", "QB", 0, 5, false, false⟩] 0 1 {} (by decide)
  · exact ff_c4.2.2.2 (fun _ _ _ _ => none) [⟨"Jane Roe", "janeroe", "QB", 1, 1⟩] 100 1 []
      [] (fun banned sel h => nomatch h) (fun banned sel h => nomatch h) rfl

/-! ## C1 -/

/-- C1: assuming the external solver returns a selection satisfying the
formulated constraints whenever it reports Optimal, every solution of the
exact engine selects exactly 7 distinct in-range players with exactly 1 QB,
at least 2 RB, at least 2 WR, at least 1 TE, total price at most the budget;
and of every previously accepted solution's item set at most `|S| - 1`
members are selected again. -/
theorem ff_c1 (solver : Solver) (df : List SRow) (budget : ℤ) (k : ℕ)
    (anchors : List String) (sols : List StrictSolution)
    (HF : ∀ banned sel, solver df budget (match_anchor_indices df anchors) banned = some sel →
      feasibleSel df budget (match_anchor_indices df anchors) banned sel)
    (hok : solve_top_k_strict solver df budget k anchors = .ok sols) :
    (∀ sol ∈ sols,
      sol.chosen.length = 7 ∧ sol.chosen.Nodup ∧ (∀ i ∈ sol.chosen, i < df.length) ∧
      ((selRows df sol.chosen).countP fun r => r.Pos == "QB") = 1 ∧
      2 ≤ ((selRows df sol.chosen).countP fun r => r.Pos == "RB") ∧
      2 ≤ ((selRows df sol.chosen).countP fun r => r.Pos == "WR") ∧
      1 ≤ ((selRows df sol.chosen).countP fun r => r.Pos == "TE") ∧
      selCost df sol.chosen ≤ budget) ∧
    sols.Pairwise fun a b =>
      (a.chosen.filter fun i => decide (i ∈ b.chosen)).length ≤ a.chosen.length - 1 := by
  have hsols := solve_top_k_strict_ok solver df budget k anchors sols hok
  subst hsols
  constructor
  · intro sol hsol
    obtain ⟨hf, _, _, _⟩ := strictLoop_sols solver df budget _ HF k 0 [] sol hsol
    obtain ⟨hnd, hbound, hcost, hlen, hqb, hte, hrb, hwr, _, _⟩ := hf
    exact ⟨hlen, hnd, hbound, hqb, hrb, hwr, hte, hcost⟩
  · have hpair := strictLoop_pairwise_banned solver df budget _ HF k 0 []
    refine hpair.imp_of_mem ?_
    intro a b ha hb hban
    obtain ⟨hfa, _, _, _⟩ := strictLoop_sols solver df budget _ HF k 0 [] a ha
    rw [hfa.2.2.2.1]
    omega

/-- Concrete 7-row frame for the C1 witness. -/
def c1df : List SRow :=
  [⟨"q", "q", "QB", 1, 1⟩, ⟨"r1", "r1", "RB", 1, 1⟩, ⟨"r2", "r2", "RB", 1, 1⟩,
   ⟨"w1", "w1", "WR", 1, 1⟩, ⟨"w2", "w2", "WR", 1, 1⟩, ⟨"t", "t", "TE", 1, 1⟩,
   ⟨"r3", "r3", "RB", 1, 1⟩]

/-- Scripted solver for the C1 witness: the full selection at rank 1, then
a non-optimal status. -/
def c1solver : Solver := fun _ _ _ banned =>
  if banned.isEmpty then some [0, 1, 2, 3, 4, 5, 6] else none

theorem c1solver_HF : ∀ banned sel,
    c1solver c1df 100 (match_anchor_indices c1df []) banned = some sel →
    feasibleSel c1df 100 (match_anchor_indices c1df []) banned sel := by
  intro banned sel h
  unfold c1solver at h
  by_cases hb : banned.isEmpty
  · rw [if_pos hb] at h
    injection h with h'
    subst h'
    have hbe : banned = [] := List.isEmpty_iff.mp hb
    subst hbe
    decide
  · rw [if_neg hb] at h
    cases h

/-- C1 witness: the theorem applied to the scripted solver on the concrete
frame; the returned rank-1 solution selects exactly 7 players within budget. -/
theorem ff_c1_witness :
    (mkStrictSolution c1df 0 [0, 1, 2, 3, 4, 5, 6]).chosen.length = 7 ∧
    selCost c1df (mkStrictSolution c1df 0 [0, 1, 2, 3, 4, 5, 6]).chosen ≤ 100 := by
  have h := ff_c1 c1solver c1df 100 2 [] [mkStrictSolution c1df 0 [0, 1, 2, 3, 4, 5, 6]]
    c1solver_HF rfl
  have h1 := h.1 _ (List.mem_cons_self _ _)
  exact ⟨h1.1, h1.2.2.2.2.2.2.2⟩

/-! ## C6: characterization of the cost-reduction swap selection -/

theorem get?_mem_enum {slots : List Slot} {i : ℕ} {s : Slot} (h : slots.get? i = some s) :
    (i, s) ∈ slots.enum := by
  rw [List.get?_eq_getElem?] at h
  exact List.mem_enum_iff_getElem?.mpr h

theorem findReduceSwap_none (pool : List Player) (anchorNames chosen : Finset String) :
    ∀ (L : List (ℕ × Slot)) (acc : Option (ℤ × ℕ × Player)),
      findReduceSwap pool anchorNames chosen L acc = none →
      acc = none ∧ ∀ i s cur, (i, s) ∈ L → s.player = some cur → cur.Name ∉ anchorNames →
        reduceCands pool chosen s cur = [] := by
  intro L
  induction L with
  | nil =>
      intro acc h
      exact ⟨h, by intro i s cur hm; cases hm⟩
  | cons hd rest ih =>
      obtain ⟨i, s⟩ := hd
      intro acc h
      rw [findReduceSwap] at h
      obtain ⟨hbest', hrest⟩ := ih _ h
      cases hsp : s.player with
      | none =>
          rw [hsp] at hbest'
          have hacc : acc = none := hbest'
          refine ⟨hacc, ?_⟩
          intro i' s' cur hm hp hanc
          rcases List.mem_cons.mp hm with heq | hm'
          · rw [Prod.mk.injEq] at heq
            obtain ⟨rfl, rfl⟩ := heq
            rw [hsp] at hp
            cases hp
          · exact hrest i' s' cur hm' hp hanc
      | some cur0 =>
          rw [hsp] at hbest'
          cases acc with
          | none =>
              have hb1 : (if cur0.Name ∈ anchorNames then (none : Option (ℤ × ℕ × Player))
                  else
                    match pickTop (fun r => (cur0.Price - r.Price, r.Projection))
                        (reduceCands pool chosen s cur0) with
                    | none => none
                    | some rep => some (cur0.Price - rep.Price, i, rep)) = none := hbest'
              refine ⟨rfl, ?_⟩
              intro i' s' cur hm hp hanc
              rcases List.mem_cons.mp hm with heq | hm'
              · rw [Prod.mk.injEq] at heq
                obtain ⟨rfl, rfl⟩ := heq
                rw [hsp] at hp
                injection hp with hc
                subst hc
                by_cases hanc0 : cur0.Name ∈ anchorNames
                · exact absurd hanc0 hanc
                · rw [if_neg hanc0] at hb1
                  cases hpk : pickTop (fun r => (cur0.Price - r.Price, r.Projection))
                      (reduceCands pool chosen s' cur0) with
                  | none => exact (pickTop_eq_none_iff _ _).mp hpk
                  | some rep =>
                      rw [hpk] at hb1
                      have hcon : some (cur0.Price - rep.Price, i', rep) =
                          (none : Option (ℤ × ℕ × Player)) := hb1
                      cases hcon
              · exact hrest i' s' cur hm' hp hanc
          | some b1 =>
              exfalso
              have hb1 : (if cur0.Name ∈ anchorNames then some b1
                  else
                    match pickTop (fun r => (cur0.Price - r.Price, r.Projection))
                        (reduceCands pool chosen s cur0) with
                    | none => some b1
                    | some rep =>
                        if b1.1 < cur0.Price - rep.Price then
                          some (cur0.Price - rep.Price, i, rep)
                        else some b1) = none := hbest'
              by_cases hanc0 : cur0.Name ∈ anchorNames
              · rw [if_pos hanc0] at hb1
                cases hb1
              · rw [if_neg hanc0] at hb1
                cases hpk : pickTop (fun r => (cur0.Price - r.Price, r.Projection))
                    (reduceCands pool chosen s cur0) with
                | none =>
                    rw [hpk] at hb1
                    have hcon : some b1 = (none : Option (ℤ × ℕ × Player)) := hb1
                    cases hcon
                | some rep =>
                    rw [hpk] at hb1
                    have hb2 : (if b1.1 < cur0.Price - rep.Price then
                        some (cur0.Price - rep.Price, i, rep) else some b1) =
                        (none : Option (ℤ × ℕ × Player)) := hb1
                    by_cases hc : b1.1 < cur0.Price - rep.Price
                    · rw [if_pos hc] at hb2
                      cases hb2
                    · rw [if_neg hc] at hb2
                      cases hb2

theorem findReduceSwap_ge (pool : List Player) (anchorNames chosen : Finset String) :
    ∀ (L : List (ℕ × Slot)) (acc : Option (ℤ × ℕ × Player)) (b : ℤ × ℕ × Player),
      findReduceSwap pool anchorNames chosen L acc = some b →
      (∀ i s cur r, (i, s) ∈ L → s.player = some cur → cur.Name ∉ anchorNames →
        r ∈ reduceCands pool chosen s cur → cur.Price - r.Price ≤ b.1) ∧
      (∀ b0, acc = some b0 → b0.1 ≤ b.1) := by
  intro L
  induction L with
  | nil =>
      intro acc b h
      have hacc : acc = some b := h
      refine ⟨?_, ?_⟩
      · intro i s cur r hm
        cases hm
      · intro b0 hb0
        rw [hb0] at hacc
        injection hacc with h1
        exact le_of_eq (by rw [h1])
  | cons hd rest ih =>
      obtain ⟨i, s⟩ := hd
      intro acc b h
      rw [findReduceSwap] at h
      cases hsp : s.player with
      | none =>
          rw [hsp] at h
          have h2 : findReduceSwap pool anchorNames chosen rest acc = some b := h
          obtain ⟨hrest, hacc⟩ := ih _ b h2
          refine ⟨?_, hacc⟩
          intro i' s' cur r hm hp hanc hr
          rcases List.mem_cons.mp hm with heq | hm'
          · rw [Prod.mk.injEq] at heq
            obtain ⟨rfl, rfl⟩ := heq
            rw [hsp] at hp
            cases hp
          · exact hrest i' s' cur r hm' hp hanc hr
      | some cur0 =>
          rw [hsp] at h
          cases acc with
          | none =>
              have h1 : findReduceSwap pool anchorNames chosen rest
                  (if cur0.Name ∈ anchorNames then (none : Option (ℤ × ℕ × Player))
                   else
                     match pickTop (fun r => (cur0.Price - r.Price, r.Projection))
                         (reduceCands pool chosen s cur0) with
                     | none => none
                     | some rep => some (cur0.Price - rep.Price, i, rep)) = some b := h
              by_cases hanc0 : cur0.Name ∈ anchorNames
              · rw [if_pos hanc0] at h1
                obtain ⟨hrest, _⟩ := ih _ b h1
                refine ⟨?_, ?_⟩
                · intro i' s' cur r hm hp hanc hr
                  rcases List.mem_cons.mp hm with heq | hm'
                  · rw [Prod.mk.injEq] at heq
                    obtain ⟨rfl, rfl⟩ := heq
                    rw [hsp] at hp
                    injection hp with hc
                    subst hc
                    exact absurd hanc0 hanc
                  · exact hrest i' s' cur r hm' hp hanc hr
                · intro b0 hb0
                  cases hb0
              · rw [if_neg hanc0] at h1
                cases hpk : pickTop (fun r => (cur0.Price - r.Price, r.Projection))
                    (reduceCands pool chosen s cur0) with
                | none =>
                    rw [hpk] at h1
                    have h2 : findReduceSwap pool anchorNames chosen rest none = some b := h1
                    obtain ⟨hrest, _⟩ := ih _ b h2
                    refine ⟨?_, ?_⟩
                    · intro i' s' cur r hm hp hanc hr
                      rcases List.mem_cons.mp hm with heq | hm'
                      · rw [Prod.mk.injEq] at heq
                        obtain ⟨rfl, rfl⟩ := heq
                        rw [hsp] at hp
                        injection hp with hc
                        subst hc
                        rw [(pickTop_eq_none_iff _ _).mp hpk] at hr
                        cases hr
                      · exact hrest i' s' cur r hm' hp hanc hr
                    · intro b0 hb0
                      cases hb0
                | some rep =>
                    rw [hpk] at h1
                    have hmax0 : ∀ r ∈ reduceCands pool chosen s cur0,
                        cur0.Price - r.Price ≤ cur0.Price - rep.Price := by
                      intro r hr
                      have hfalse : lexLtZ (cur0.Price - rep.Price, rep.Projection)
                          (cur0.Price - r.Price, r.Projection) = false :=
                        (pickTop_spec _ _ _ hpk).2 r hr
                      have hne : ¬ (cur0.Price - rep.Price < cur0.Price - r.Price ∨
                          (cur0.Price - rep.Price = cur0.Price - r.Price ∧
                            rep.Projection < r.Projection)) := by
                        intro hcon
                        have htrue := (lexLtZ_iff (cur0.Price - rep.Price, rep.Projection)
                            (cur0.Price - r.Price, r.Projection)).mpr hcon
                        rw [hfalse] at htrue
                        cases htrue
                      omega
                    have h2 : findReduceSwap pool anchorNames chosen rest
                        (some (cur0.Price - rep.Price, i, rep)) = some b := h1
                    obtain ⟨hrest, hacc⟩ := ih _ b h2
                    have hle : cur0.Price - rep.Price ≤ b.1 := hacc _ rfl
                    refine ⟨?_, ?_⟩
                    · intro i' s' cur r hm hp hanc hr
                      rcases List.mem_cons.mp hm with heq | hm'
                      · rw [Prod.mk.injEq] at heq
                        obtain ⟨rfl, rfl⟩ := heq
                        rw [hsp] at hp
                        injection hp with hc
                        subst hc
                        exact le_trans (hmax0 r hr) hle
                      · exact hrest i' s' cur r hm' hp hanc hr
                    · intro b0 hb0
                      cases hb0
          | some b1 =>
              have h1 : findReduceSwap pool anchorNames chosen rest
                  (if cur0.Name ∈ anchorNames then some b1
                   else
                     match pickTop (fun r => (cur0.Price - r.Price, r.Projection))
                         (reduceCands pool chosen s cur0) with
                     | none => some b1
                     | some rep =>
                         if b1.1 < cur0.Price - rep.Price then
                           some (cur0.Price - rep.Price, i, rep)
                         else some b1) = some b := h
              by_cases hanc0 : cur0.Name ∈ anchorNames
              · rw [if_pos hanc0] at h1
                obtain ⟨hrest, hacc⟩ := ih _ b h1
                refine ⟨?_, ?_⟩
                · intro i' s' cur r hm hp hanc hr
                  rcases List.mem_cons.mp hm with heq | hm'
                  · rw [Prod.mk.injEq] at heq
                    obtain ⟨rfl, rfl⟩ := heq
                    rw [hsp] at hp
                    injection hp with hc
                    subst hc
                    exact absurd hanc0 hanc
                  · exact hrest i' s' cur r hm' hp hanc hr
                · intro b0 hb0
                  injection hb0 with he
                  subst he
                  exact hacc _ rfl
              · rw [if_neg hanc0] at h1
                cases hpk : pickTop (fun r => (cur0.Price - r.Price, r.Projection))
                    (reduceCands pool chosen s cur0) with
                | none =>
                    rw [hpk] at h1
                    have h2 : findReduceSwap pool anchorNames chosen rest (some b1) =
                        some b := h1
                    obtain ⟨hrest, hacc⟩ := ih _ b h2
                    refine ⟨?_, ?_⟩
                    · intro i' s' cur r hm hp hanc hr
                      rcases List.mem_cons.mp hm with heq | hm'
                      · rw [Prod.mk.injEq] at heq
                        obtain ⟨rfl, rfl⟩ := heq
                        rw [hsp] at hp
                        injection hp with hc
                        subst hc
                        rw [(pickTop_eq_none_iff _ _).mp hpk] at hr
                        cases hr
                      · exact hrest i' s' cur r hm' hp hanc hr
                    · intro b0 hb0
                      injection hb0 with he
                      subst he
                      exact hacc _ rfl
                | some rep =>
                    rw [hpk] at h1
                    have hmax0 : ∀ r ∈ reduceCands pool chosen s cur0,
                        cur0.Price - r.Price ≤ cur0.Price - rep.Price := by
                      intro r hr
                      have hfalse : lexLtZ (cur0.Price - rep.Price, rep.Projection)
                          (cur0.Price - r.Price, r.Projection) = false :=
                        (pickTop_spec _ _ _ hpk).2 r hr
                      have hne : ¬ (cur0.Price - rep.Price < cur0.Price - r.Price ∨
                          (cur0.Price - rep.Price = cur0.Price - r.Price ∧
                            rep.Projection < r.Projection)) := by
                        intro hcon
                        have htrue := (lexLtZ_iff (cur0.Price - rep.Price, rep.Projection)
                            (cur0.Price - r.Price, r.Projection)).mpr hcon
                        rw [hfalse] at htrue
                        cases htrue
                      omega
                    have h2 : findReduceSwap pool anchorNames chosen rest
                        (if b1.1 < cur0.Price - rep.Price then
                          some (cur0.Price - rep.Price, i, rep) else some b1) = some b := h1
                    by_cases hc : b1.1 < cur0.Price - rep.Price
                    · rw [if_pos hc] at h2
                      obtain ⟨hrest, hacc⟩ := ih _ b h2
                      have hle : cur0.Price - rep.Price ≤ b.1 := hacc _ rfl
                      refine ⟨?_, ?_⟩
                      · intro i' s' cur r hm hp hanc hr
                        rcases List.mem_cons.mp hm with heq | hm'
                        · rw [Prod.mk.injEq] at heq
                          obtain ⟨rfl, rfl⟩ := heq
                          rw [hsp] at hp
                          injection hp with hc2
                          subst hc2
                          exact le_trans (hmax0 r hr) hle
                        · exact hrest i' s' cur r hm' hp hanc hr
                      · intro b0 hb0
                        injection hb0 with he
                        subst he
                        exact le_trans (le_of_lt hc) hle
                    · rw [if_neg hc] at h2
                      obtain ⟨hrest, hacc⟩ := ih _ b h2
                      have hb1le : b1.1 ≤ b.1 := hacc _ rfl
                      have hle : cur0.Price - rep.Price ≤ b.1 :=
                        le_trans (not_lt.mp hc) hb1le
                      refine ⟨?_, ?_⟩
                      · intro i' s' cur r hm hp hanc hr
                        rcases List.mem_cons.mp hm with heq | hm'
                        · rw [Prod.mk.injEq] at heq
                          obtain ⟨rfl, rfl⟩ := heq
                          rw [hsp] at hp
                          injection hp with hc2
                          subst hc2
                          exact le_trans (hmax0 r hr) hle
                        · exact hrest i' s' cur r hm' hp hanc hr
                      · intro b0 hb0
                        injection hb0 with he
                        subst he
                        exact hb1le

theorem reduceStep_none (pool : List Player) (anchorNames : Finset String) (st : ImpState)
    (h : reduceStep pool anchorNames st = none) :
    ∀ i s cur, st.slots.get? i = some s → s.player = some cur → cur.Name ∉ anchorNames →
      reduceCands pool st.chosen s cur = [] := by
  unfold reduceStep at h
  cases hf : findReduceSwap pool anchorNames st.chosen st.slots.enum none with
  | some b =>
      exfalso
      rw [hf] at h
      obtain ⟨s, cur, hmem, hp, hanc, _, _, _⟩ :=
        findReduceSwap_sound pool anchorNames st.chosen st.slots.enum st.slots.enum none
          (fun x hx => hx) (by intro b0 hb0; cases hb0) b hf
      have hget := enum_get? hmem
      have h1 : (match st.slots.get? b.2.1 with
          | some s =>
            match s.player with
            | some cur => some (applySwap st b.2.1 cur b.2.2)
            | none => none
          | none => none) = none := h
      rw [hget] at h1
      have h2 : (match s.player with
          | some cur => some (applySwap st b.2.1 cur b.2.2)
          | none => none) = none := h1
      rw [hp] at h2
      have h3 : some (applySwap st b.2.1 cur b.2.2) = (none : Option ImpState) := h2
      cases h3
  | none =>
      intro i s cur hget hp hanc
      exact (findReduceSwap_none pool anchorNames st.chosen st.slots.enum none hf).2
        i s cur (get?_mem_enum hget) hp hanc

theorem reduceStep_char (pool : List Player) (anchorNames : Finset String) (st st' : ImpState)
    (h : reduceStep pool anchorNames st = some st') :
    ∃ i s cur rep, st.slots.get? i = some s ∧ s.player = some cur ∧ cur.Name ∉ anchorNames ∧
      rep ∈ reduceCands pool st.chosen s cur ∧ st' = applySwap st i cur rep ∧
      (∀ r ∈ reduceCands pool st.chosen s cur,
        cur.Price - r.Price < cur.Price - rep.Price ∨
          (cur.Price - r.Price = cur.Price - rep.Price ∧ r.Projection ≤ rep.Projection)) ∧
      (∀ j s2 cur2 r, st.slots.get? j = some s2 → s2.player = some cur2 →
        cur2.Name ∉ anchorNames → r ∈ reduceCands pool st.chosen s2 cur2 →
        cur2.Price - r.Price ≤ cur.Price - rep.Price) := by
  unfold reduceStep at h
  cases hf : findReduceSwap pool anchorNames st.chosen st.slots.enum none with
  | none =>
      rw [hf] at h
      cases h
  | some b =>
      rw [hf] at h
      obtain ⟨s, cur, hmem, hp, hanc, hpk, hrep, hb1⟩ :=
        findReduceSwap_sound pool anchorNames st.chosen st.slots.enum st.slots.enum none
          (fun x hx => hx) (by intro b0 hb0; cases hb0) b hf
      have hget := enum_get? hmem
      have h1 : (match st.slots.get? b.2.1 with
          | some s =>
            match s.player with
            | some cur => some (applySwap st b.2.1 cur b.2.2)
            | none => none
          | none => none) = some st' := h
      rw [hget] at h1
      have h2 : (match s.player with
          | some cur => some (applySwap st b.2.1 cur b.2.2)
          | none => none) = some st' := h1
      rw [hp] at h2
      have h3 : some (applySwap st b.2.1 cur b.2.2) = some st' := h2
      injection h3 with h4
      have hge := findReduceSwap_ge pool anchorNames st.chosen st.slots.enum none b hf
      refine ⟨b.2.1, s, cur, b.2.2, hget, hp, hanc, hrep, h4.symm, ?_, ?_⟩
      · intro r hr
        have hfalse : lexLtZ (cur.Price - b.2.2.Price, b.2.2.Projection)
            (cur.Price - r.Price, r.Projection) = false :=
          (pickTop_spec _ _ _ hpk).2 r hr
        have hne : ¬ (cur.Price - b.2.2.Price < cur.Price - r.Price ∨
            (cur.Price - b.2.2.Price = cur.Price - r.Price ∧
              b.2.2.Projection < r.Projection)) := by
          intro hcon
          have htrue := (lexLtZ_iff (cur.Price - b.2.2.Price, b.2.2.Projection)
              (cur.Price - r.Price, r.Projection)).mpr hcon
          rw [hfalse] at htrue
          cases htrue
        omega
      · intro j s2 cur2 r hg2 hp2 hanc2 hr2
        have hle := hge.1 j s2 cur2 r (get?_mem_enum hg2) hp2 hanc2 hr2
        omega

def c6R1 : Player := ⟨"R1", "RB", 10, 0, false, false⟩

def c6W1 : Player := ⟨"W1", "WR", 10, 0, false, false⟩

def c6R2 : Player := ⟨"R2", "RB", 5, 1, false, false⟩

def c6W2 : Player := ⟨"W2", "WR", 5, 9, false, false⟩

def c6pool : List Player := [c6R1, c6W1, c6R2, c6W2]

def c6st : ImpState :=
  ⟨[⟨"RB", some c6R1⟩, ⟨"WR", some c6W1⟩], insert "R1" (insert "W1" ∅), 20⟩

def c6st' : ImpState :=
  ⟨[⟨"RB", some c6R2⟩, ⟨"WR", some c6W1⟩], insert "R2" (insert "W1" ∅), 15⟩

/-- Counterexample to claim C6 as stated: with two bound non-anchor slots whose best
replacements tie on price reduction (both save 5), the cost-reduction step applies the
swap in the earlier slot (replacement projection 1) even though the other slot's
replacement has strictly higher projection (9), because `saving > best[0]` keeps the
earlier slot on equal savings: across slots, ties are NOT broken by higher replacement
projection. -/
theorem ff_c6_counterexample :
    reduceStep c6pool ∅ c6st = some c6st' ∧
    c6W2 ∈ reduceCands c6pool c6st.chosen ⟨"WR", some c6W1⟩ c6W1 ∧
    c6W1.Price - c6W2.Price = c6R1.Price - c6R2.Price ∧
    c6R2.Projection < c6W2.Projection := by
  decide

/-- Claim C6 (amended): during cost reduction, while total price exceeds the budget
(at most 200 iterations), each iteration considers for every bound non-anchor slot the
compatible unused replacements strictly cheaper than the occupant, and applies a single
swap whose price reduction is largest across all slots; within the chosen slot ties are
broken by the higher projected value of the replacement, while across slots ties go to
the earlier slot; the loop stops early when no candidate swap exists anywhere, possibly
leaving the solution over budget without raising an error. -/
theorem ff_c6 (pool : List Player) (anchorNames : Finset String) (budget : ℤ) (fuel : ℕ)
    (st : ImpState) :
    (st.spent ≤ budget → reduceLoop pool anchorNames budget (fuel + 1) st = st) ∧
    (¬ st.spent ≤ budget →
      ((reduceStep pool anchorNames st = none →
          reduceLoop pool anchorNames budget (fuel + 1) st = st ∧
          ∀ i s cur, st.slots.get? i = some s → s.player = some cur →
            cur.Name ∉ anchorNames → reduceCands pool st.chosen s cur = []) ∧
        (∀ st', reduceStep pool anchorNames st = some st' →
          reduceLoop pool anchorNames budget (fuel + 1) st =
            reduceLoop pool anchorNames budget fuel st' ∧
          ∃ i s cur rep, st.slots.get? i = some s ∧ s.player = some cur ∧
            cur.Name ∉ anchorNames ∧ rep ∈ reduceCands pool st.chosen s cur ∧
            rep.Price < cur.Price ∧ st' = applySwap st i cur rep ∧
            (∀ r ∈ reduceCands pool st.chosen s cur,
              cur.Price - r.Price < cur.Price - rep.Price ∨
                (cur.Price - r.Price = cur.Price - rep.Price ∧
                  r.Projection ≤ rep.Projection)) ∧
            (∀ j s2 cur2 r, st.slots.get? j = some s2 → s2.player = some cur2 →
              cur2.Name ∉ anchorNames → r ∈ reduceCands pool st.chosen s2 cur2 →
              cur2.Price - r.Price ≤ cur.Price - rep.Price)))) := by
  refine ⟨?_, ?_⟩
  · intro hb
    rw [reduceLoop, if_pos hb]
  · intro hnb
    refine ⟨?_, ?_⟩
    · intro hnone
      refine ⟨?_, reduceStep_none pool anchorNames st hnone⟩
      rw [reduceLoop, if_neg hnb, hnone]
    · intro st' hsome
      refine ⟨?_, ?_⟩
      · rw [reduceLoop, if_neg hnb, hsome]
      · obtain ⟨i, s, cur, rep, hget, hp, hanc, hrep, hsw, hlex, hmax⟩ :=
          reduceStep_char pool anchorNames st st' hsome
        have hprice : rep.Price < cur.Price :=
          ((mem_reduceCands pool st.chosen s cur rep).mp hrep).2.2.2
        exact ⟨i, s, cur, rep, hget, hp, hanc, hrep, hprice, hsw, hlex, hmax⟩

/-- Witness for C6 at a concrete over-budget state: the loop hypothesis and the
step hypothesis are discharged by evaluation. -/
theorem ff_c6_witness :
    reduceLoop c6pool ∅ 0 (199 + 1) c6st = reduceLoop c6pool ∅ 0 199 c6st' := by
  exact (((ff_c6 c6pool ∅ 0 199 c6st).2 (by decide)).2 c6st' (by decide)).1

theorem _slots_spent_eq_players_sum (slots : List Slot) :

    _slots_spent slots = ((_slots_players slots).map (·.Price)).sum := by
  induction slots with
  | nil => simp [_slots_spent, _slots_players]
  | cons s rest ih =>
      rw [_slots_players_cons]
      cases h : s.player with
      | none =>
          simp only [_slots_spent, List.map_cons, List.sum_cons, h] at ih ⊢
          simpa using ih
      | some p =>
          simp only [_slots_spent, List.map_cons, List.sum_cons, h] at ih ⊢
          simp [ih]

end FF
